import Mathlib

/-!
Verification development for the undofs versioned overlay filesystem
(`src/undofs_util.c`, `src/undofs_fops.c`).

Paths are modelled as `List Char` (C strings without the terminating NUL).
The backing store is modelled as an association list from absolute backing
paths to nodes, together with a C-style `errno` cell; each POSIX primitive
used by the source is given a small-step model, and each handler of
`undofs_fops.c` is translated into a function over that state.

Modelling notes:
* `strtol(s, NULL, 10)` is modelled without the `LONG_MAX`/`LONG_MIN`
  clamping of libc (directory entry names in all statements are short).
* file modes, owners and timestamps other than the single `mtime` field are
  not modelled; no claim mentions them.
* the external `/bin/cp -a` child process of `clone_file` and spurious
  backing-store failures (for example `ENOSPC`) are external
  nondeterminism; they are modelled by explicit boolean oracle parameters,
  documented at the definitions that take them.
-/

namespace Undofs

/-- PATH_MAX of the platform, as used by the buffer-size checks of the mangler. -/
def PATH_MAX : Nat := 4096

def ENOENT : Int := 2
def EIO : Int := 5
def EEXIST : Int := 17
def ENOTDIR : Int := 20
def EISDIR : Int := 21
def EINVAL : Int := 22
def ENOSPC : Int := 28
def ENAMETOOLONG : Int := 36
def ENOTEMPTY : Int := 39

/-- True iff the character list contains no path separator. -/
def noSlash (l : List Char) : Bool := l.all (fun c => c != '/')

/-- Decimal digit character for a digit value (values ≥ 9 give the digit 9). -/
def digitChar (d : Nat) : Char :=
  match d with
  | 0 => '0' | 1 => '1' | 2 => '2' | 3 => '3' | 4 => '4'
  | 5 => '5' | 6 => '6' | 7 => '7' | 8 => '8' | _ => '9'

/-- Fuel-indexed digit recursion behind `decRepr`; the fuel only bounds the
recursion depth and `decRepr` supplies enough of it. -/
def decReprAux : Nat → Nat → List Char
  | 0, n => [digitChar n]
  | fuel + 1, n =>
    if n < 10 then [digitChar n]
    else decReprAux fuel (n / 10) ++ [digitChar (n % 10)]

/-- Decimal representation of a natural number, as printf %ld prints it. -/
def decRepr (n : Nat) : List Char := decReprAux n n

/-- Decimal representation of an integer (`snprintf "%ld"`). -/
def intRepr (v : Int) : List Char :=
  if v < 0 then '-' :: decRepr v.natAbs else decRepr v.toNat

/-- C `isdigit` on the ASCII range. -/
def isDigit (c : Char) : Bool := 48 ≤ c.toNat && c.toNat ≤ 57

/-- C `isspace` (the characters skipped by strtol). -/
def isSpace (c : Char) : Bool :=
  c == ' ' || c == '\t' || c == '\n' || c == '\x0b' || c == '\x0c' || c == '\x0d'

/-- Accumulating scan of leading decimal digits, stopping at the first
non-digit, as the digit loop of `strtol` does. -/
def digitsVal : List Char → Nat → Nat
  | [], acc => acc
  | c :: cs, acc => if isDigit c then digitsVal cs (acc * 10 + (c.toNat - 48)) else acc

/-- Model of `strtol(s, NULL, 10)`: skip spaces, optional sign, digits;
returns 0 when no digit follows.  (Overflow clamping is not modelled.) -/
def strtol10 (s : List Char) : Int :=
  match s.dropWhile isSpace with
  | '-' :: rest => -(digitsVal rest 0 : Int)
  | '+' :: rest => (digitsVal rest 0 : Int)
  | s1 => (digitsVal s1 0 : Int)

/-- The five characters of the `.node` suffix appended by the mangler. -/
def nodeSuf : List Char := ['.', 'n', 'o', 'd', 'e']

/-- Main loop of `undofs_versiondir_path`: `outLen` is the number of
characters already in the output buffer; each maximal run of slashes of
the remaining input is rewritten to a single `.node/`, and the check
`fpath_pos + 12 < fpath + PATH_MAX` guards every emission; a `none` result
is the `ENAMETOOLONG` failure.  The C skip-loop
`while(path_pos[1] == '/') path_pos++;` advances to the last slash of a
run before emitting; it is modelled by the first branch, which drops one
slash of a run at a time — the buffer-bound check is unaffected because
nothing is emitted while skipping. -/
def mangleCore : Nat → List Char → Option (List Char)
  | _, [] => some []
  | outLen, c :: cs =>
    if c = '/' ∧ cs.head? = some '/' then mangleCore outLen cs
    else if outLen + 12 < PATH_MAX then
      if c = '/' then
        match mangleCore (outLen + 6) cs with
        | none => none
        | some tl => some ('.' :: 'n' :: 'o' :: 'd' :: 'e' :: '/' :: tl)
      else
        match mangleCore (outLen + 1) cs with
        | none => none
        | some tl => some (c :: tl)
    else none

/-- Model of `undofs_versiondir_path(fpath, path)` for backing root `root`:
`"/"` maps to the root itself; otherwise the leading slashes of `path` are
copied verbatim, the remainder is mangled by `mangleCore`, and a final
`.node` is appended when the main loop emitted at least one character.
Returns `none` on `ENAMETOOLONG`.  (The initial `snprintf` of the root is
modelled as an exact copy; roots close to PATH_MAX in length are outside
the model.) -/
def undofs_versiondir_path (root path : List Char) : Option (List Char) :=
  if path = ['/'] then some root
  else
    let lead := path.takeWhile (fun c => c == '/')
    let rest := path.dropWhile (fun c => c == '/')
    match mangleCore (root.length + lead.length) rest with
    | none => none
    | some m => some (root ++ lead ++ m ++ (if m.isEmpty then [] else nodeSuf))

/-- Bound-free companion of `mangleCore` (the pure rewriting of every
slash run to `.node/`); every successful `mangleCore` result equals it. -/
def sm : List Char → List Char
  | [] => []
  | c :: cs =>
    if c = '/' ∧ cs.head? = some '/' then sm cs
    else if c = '/' then '.' :: 'n' :: 'o' :: 'd' :: 'e' :: '/' :: sm cs
    else c :: sm cs

/-- Inverse scan of `sm`: deletes the `.node` inserted before every slash. -/
def gInv : List Char → List Char
  | [] => []
  | c :: cs =>
    if c = '.' ∧ cs.take 5 = ['n', 'o', 'd', 'e', '/'] then '/' :: gInv (cs.drop 5)
    else c :: gInv cs
termination_by l => l.length
decreasing_by
  · have h1 := List.length_drop 5 cs
    exact Nat.lt_succ_of_le (by omega)
  · exact Nat.lt_succ_self _

/-- True iff the list has no two adjacent slashes. -/
def noDbl : List Char → Bool
  | [] => true
  | [_] => true
  | c1 :: c2 :: rest => !(c1 == '/' && c2 == '/') && noDbl (c2 :: rest)

/-- Scanning loop of `undofs_clean_name`: `dlc` is `demangled_last_char`.
A `.node` standing before a slash or at the end of the string is skipped
(the C advances `mangled_pos` by 5; here the leading `.` is consumed by
the test and `skip = 4` consumes the remaining `node`), other characters
are copied, and a copied slash with `dlc = 0` or a final `dlc = 0` spoils
the result; the boolean result is true iff the name was fully mangled
(`retval == 0` in the C source). -/
def cleanLoop : Nat → Bool → List Char → Bool × List Char
  | skip + 1, dlc, _ :: cs => cleanLoop skip dlc cs
  | _ + 1, dlc, [] => (dlc, [])
  | 0, dlc, [] => (dlc, [])
  | 0, dlc, c :: cs =>
    if c = '.' ∧ cs.take 4 = ['n', 'o', 'd', 'e'] ∧
       (cs.drop 4 = [] ∨ (cs.drop 4).head? = some '/')
    then cleanLoop 4 true cs
    else
      let r := cleanLoop 0 false cs
      (r.1 && !(c == '/' && !dlc), c :: r.2)

/-- Model of `undofs_clean_name(name, mangled)` with backing root `root`:
strip the root prefix when present, copy a single leading slash, then run
the demangling scan.  Returns `(ok, name)` where `ok` corresponds to a
zero return value of the C function. -/
def undofs_clean_name (root mangled : List Char) : Bool × List Char :=
  let m1 := if root.isPrefixOf mangled then mangled.drop root.length else mangled
  match m1 with
  | '/' :: m2 =>
    let r := cleanLoop 0 true m2
    (r.1, '/' :: r.2)
  | _ => cleanLoop 0 true m1

/-- Last component of a path: the suffix after the final slash (the whole
list when it has no slash). -/
def lastComp (l : List Char) : List Char :=
  (l.reverse.takeWhile (fun c => c != '/')).reverse

/-! ## Backing-store model -/

/-- A node of the backing filesystem.  Regular files carry their byte
content and a modification time; modes and owners are not modelled. -/
inductive Node where
  | dir : Node
  | file (content : List Nat) (mtime : Int) : Node
  | fifo : Node
  | special : Node
  | symlink (target : List Char) : Node
deriving DecidableEq

/-- The backing store: an association list from absolute backing paths to
nodes. -/
abbrev Store := List (List Char × Node)

/-- Backing store plus the C `errno` cell of the handler thread. -/
structure Sys where
  store : Store
  errno : Int
deriving DecidableEq

/-- First-match association lookup. -/
def lookupKey : Store → List Char → Option Node
  | [], _ => none
  | (k, v) :: rest, q => if k = q then some v else lookupKey rest q

/-- Replace the node stored at a key (no-op on keys not present). -/
def updateKey (st : Store) (k : List Char) (v : Node) : Store :=
  st.map (fun e => if e.1 = k then (k, v) else e)

/-- Dirname of a backing path: everything before the final slash. -/
def parentOf (k : List Char) : List Char :=
  ((k.reverse.dropWhile (fun c => c != '/')).drop 1).reverse

/-- True iff `k` lies strictly below directory `d`. -/
def underDir (d k : List Char) : Bool := (d ++ ['/']).isPrefixOf k

/-- Direct-child name of `d` encoded in key `k`, when `k = d ++ "/" ++ name`
with a nonempty slash-free `name`. -/
def childNameOf (d k : List Char) : Option (List Char) :=
  if d.isPrefixOf k then
    match k.drop d.length with
    | '/' :: rest => if rest ≠ [] ∧ noSlash rest then some rest else none
    | _ => none
  else none

/-- Names of the direct children of directory `d` recorded in the store
(excluding the `.` and `..` entries, which `dirListing` adds). -/
def childNames (st : Store) (d : List Char) : List (List Char) :=
  st.filterMap (fun e => childNameOf d e.1)

/-- Entry names produced by reading directory `d`: every directory listing
starts with `.` and `..`. -/
def dirListing (st : Store) (d : List Char) : List (List Char) :=
  ['.'] :: ['.', '.'] :: childNames st d

/-! ## POSIX primitives on the store (backing-store adapter) -/

/-- Model of `access(k, F_OK)`. -/
def accessF (s : Sys) (k : List Char) : Int × Sys :=
  match lookupKey s.store k with
  | some _ => (0, s)
  | none => (-1, { s with errno := ENOENT })

/-- Model of `mkdir(k, mode)` (the mode is not modelled). -/
def mkdirS (s : Sys) (k : List Char) : Int × Sys :=
  match lookupKey s.store k with
  | some _ => (-1, { s with errno := EEXIST })
  | none =>
    match lookupKey s.store (parentOf k) with
    | some Node.dir => (0, { s with store := (k, Node.dir) :: s.store })
    | some _ => (-1, { s with errno := ENOTDIR })
    | none => (-1, { s with errno := ENOENT })

/-- Model of the `rmdir(k)` system call. -/
def rmdirS (s : Sys) (k : List Char) : Int × Sys :=
  match lookupKey s.store k with
  | none => (-1, { s with errno := ENOENT })
  | some Node.dir =>
    if s.store.any (fun e => underDir k e.1) then (-1, { s with errno := ENOTEMPTY })
    else (0, { s with store := s.store.filter (fun e => e.1 != k) })
  | some _ => (-1, { s with errno := ENOTDIR })

/-- Model of the `unlink(k)` system call. -/
def unlinkS (s : Sys) (k : List Char) : Int × Sys :=
  match lookupKey s.store k with
  | none => (-1, { s with errno := ENOENT })
  | some Node.dir => (-1, { s with errno := EISDIR })
  | some _ => (0, { s with store := s.store.filter (fun e => e.1 != k) })

/-- Model of `open(k, O_CREAT | O_EXCL | O_WRONLY)`; returns a descriptor
(3) on success. -/
def openExclS (s : Sys) (k : List Char) : Int × Sys :=
  match lookupKey s.store k with
  | some _ => (-1, { s with errno := EEXIST })
  | none =>
    match lookupKey s.store (parentOf k) with
    | some Node.dir => (3, { s with store := (k, Node.file [] 0) :: s.store })
    | some _ => (-1, { s with errno := ENOTDIR })
    | none => (-1, { s with errno := ENOENT })

/-- Model of `creat(k, mode)` = `open(k, O_CREAT | O_TRUNC | O_WRONLY)`:
truncates an existing regular file, creates a fresh empty one otherwise. -/
def creatS (s : Sys) (k : List Char) : Int × Sys :=
  match lookupKey s.store k with
  | some (Node.file _ _) => (3, { s with store := updateKey s.store k (Node.file [] 0) })
  | some Node.dir => (-1, { s with errno := EISDIR })
  | some _ => (3, s)
  | none =>
    match lookupKey s.store (parentOf k) with
    | some Node.dir => (3, { s with store := (k, Node.file [] 0) :: s.store })
    | some _ => (-1, { s with errno := ENOTDIR })
    | none => (-1, { s with errno := ENOENT })

/-- POSIX truncation of byte content: cut or zero-extend to length `n`. -/
def truncContent (c : List Nat) (n : Nat) : List Nat :=
  c.take n ++ List.replicate (n - c.length) 0

/-- Model of the `truncate(k, n)` system call. -/
def truncateS (s : Sys) (k : List Char) (n : Nat) : Int × Sys :=
  match lookupKey s.store k with
  | some (Node.file c t) =>
    (0, { s with store := updateKey s.store k (Node.file (truncContent c n) t) })
  | some Node.dir => (-1, { s with errno := EISDIR })
  | some _ => (-1, { s with errno := EINVAL })
  | none => (-1, { s with errno := ENOENT })

/-- Model of the `utime(k, t)` system call (directory and special-node
times are not modelled; the call succeeds on them without effect). -/
def utimeS (s : Sys) (k : List Char) (t : Int) : Int × Sys :=
  match lookupKey s.store k with
  | some (Node.file c _) => (0, { s with store := updateKey s.store k (Node.file c t) })
  | some _ => (0, s)
  | none => (-1, { s with errno := ENOENT })

/-- Write intent of an `open` flags word: `flags & O_RDWR || flags & O_WRONLY`
with the Linux values `O_WRONLY = 1`, `O_RDWR = 2`. -/
def writeIntent (flags : Nat) : Bool := (flags &&& 2 != 0) || (flags &&& 1 != 0)

/-- Model of plain `open(k, flags)` (no `O_CREAT`); returns a descriptor
(3) on success. -/
def openS (s : Sys) (k : List Char) (flags : Nat) : Int × Sys :=
  match lookupKey s.store k with
  | none => (-1, { s with errno := ENOENT })
  | some Node.dir =>
    if writeIntent flags then (-1, { s with errno := EISDIR }) else (3, s)
  | some _ => (3, s)

/-- Model of `mkfifo(k, mode)`. -/
def mkfifoS (s : Sys) (k : List Char) : Int × Sys :=
  match lookupKey s.store k with
  | some _ => (-1, { s with errno := EEXIST })
  | none =>
    match lookupKey s.store (parentOf k) with
    | some Node.dir => (0, { s with store := (k, Node.fifo) :: s.store })
    | some _ => (-1, { s with errno := ENOTDIR })
    | none => (-1, { s with errno := ENOENT })

/-- Model of the `mknod(k, mode, dev)` system call for special nodes. -/
def mknodSpecialS (s : Sys) (k : List Char) : Int × Sys :=
  match lookupKey s.store k with
  | some _ => (-1, { s with errno := EEXIST })
  | none =>
    match lookupKey s.store (parentOf k) with
    | some Node.dir => (0, { s with store := (k, Node.special) :: s.store })
    | some _ => (-1, { s with errno := ENOTDIR })
    | none => (-1, { s with errno := ENOENT })

/-- Model of `symlink(target, k)`. -/
def symlinkS (s : Sys) (target k : List Char) : Int × Sys :=
  match lookupKey s.store k with
  | some _ => (-1, { s with errno := EEXIST })
  | none =>
    match lookupKey s.store (parentOf k) with
    | some Node.dir => (0, { s with store := (k, Node.symlink target) :: s.store })
    | some _ => (-1, { s with errno := ENOTDIR })
    | none => (-1, { s with errno := ENOENT })

/-- Model of the `rename(src, dst)` system call: re-key `src` and the
subtree below it to `dst`, dropping whatever was at `dst`.  (Only the
missing-source failure is modelled; the claims never reach this call.) -/
def renameS (s : Sys) (src dst : List Char) : Int × Sys :=
  match lookupKey s.store src with
  | none => (-1, { s with errno := ENOENT })
  | some _ =>
    let moved := (s.store.filter (fun e => e.1 == src || underDir src e.1)).map
      (fun e => (dst ++ e.1.drop src.length, e.2))
    let rest := s.store.filter
      (fun e => !(e.1 == src || underDir src e.1 || e.1 == dst || underDir dst e.1))
    (0, { s with store := moved ++ rest })

/-- Model of `clone_file(src, dst)` (`src/undofs_util.c`): the file is
duplicated by forking `/bin/cp -a src dst` and waiting for it.  `sigFail`
is an oracle for the only failure the C function reports: fork/waitpid
failure or the child being killed or stopped by a signal (`errno` is then
left as it was).  When the child runs to completion the C function returns
0 even if `cp` itself exited with a nonzero status, so a missing source or
missing destination directory is reported as success with no copy
performed. -/
def clone_file (sigFail : Bool) (s : Sys) (src dst : List Char) : Int × Sys :=
  if sigFail then (-1, s)
  else
    match lookupKey s.store src, lookupKey s.store (parentOf dst) with
    | some v, some Node.dir =>
      match lookupKey s.store dst with
      | some _ => (0, { s with store := updateKey s.store dst v })
      | none => (0, { s with store := (dst, v) :: s.store })
    | _, _ => (0, s)

/-! ## Versioning engine (`src/undofs_util.c`) -/

/-- The `/dir` suffix naming the directory-sentinel child. -/
def dirMark : List Char := ['/', 'd', 'i', 'r']

/-- The `/deleted` suffix naming the tombstone child. -/
def delMark : List Char := ['/', 'd', 'e', 'l', 'e', 't', 'e', 'd']

/-- Model of `is_directory(path)`: `access(path "/dir", F_OK) == 0`. -/
def is_directory (s : Sys) (d : List Char) : Bool × Sys :=
  let r := accessF s (d ++ dirMark)
  (r.1 == 0, r.2)

/-- Model of `is_deleted(path)`: `access(path "/deleted", F_OK) == 0`. -/
def is_deleted (s : Sys) (d : List Char) : Bool × Sys :=
  let r := accessF s (d ++ delMark)
  (r.1 == 0, r.2)

/-- Model of `undelete(path)`: unlink the tombstone. -/
def undelete (s : Sys) (d : List Char) : Int × Sys :=
  unlinkS s (d ++ delMark)

/-- Model of `touch(path)`: exclusive-create an empty file and close it. -/
def touch (s : Sys) (k : List Char) : Int × Sys :=
  let r := openExclS s k
  if r.1 < 0 then (-1, r.2) else (0, r.2)

/-- Accumulator step of the revision scan of `undofs_latest_version`:
`curr_file = strtol(name); if (curr_file > max_file) max_file = curr_file`. -/
def strtolStep (mx : Int) (e : List Char) : Int :=
  let v := strtol10 e
  if v > mx then v else mx

/-- Model of `undofs_latest_version(path)`: mangle the path, open the
version directory, and fold the revision scan over every directory entry
(including `.` and `..`); −1 when mangling fails or the directory cannot
be opened. -/
def undofs_latest_version (root : List Char) (s : Sys) (path : List Char) : Int × Sys :=
  match undofs_versiondir_path root path with
  | none => (-1, { s with errno := ENAMETOOLONG })
  | some d =>
    match lookupKey s.store d with
    | some Node.dir => ((dirListing s.store d).foldl strtolStep (-1), s)
    | some _ => (-1, { s with errno := ENOTDIR })
    | none => (-1, { s with errno := ENOENT })

/-- Model of `undofs_latest_path(fpath, path)`: result is
`(ret, fpath, sys)`; on mangling failure `ret = -1` and the output buffer
is unspecified (modelled as `[]`). -/
def undofs_latest_path (root : List Char) (s : Sys) (path : List Char) :
    Int × List Char × Sys :=
  let r1 := undofs_latest_version root s path
  match undofs_versiondir_path root path with
  | none => (-1, [], { r1.2 with errno := ENAMETOOLONG })
  | some d =>
    let rdel := is_deleted r1.2 d
    let version := if rdel.1 then r1.1 + 1 else r1.1
    let rdir := is_directory rdel.2 d
    if rdir.1 then (0, d, rdir.2)
    else (0, d ++ '/' :: intRepr version, rdir.2)

/-- Model of `undofs_new_path(fpath, path)`: allocate the next revision
path; directories fail with `EISDIR` (and an empty output buffer), a
tombstoned file is untombstoned without cloning, a live file is cloned
from its latest revision, and an absent file gets a fresh version
directory.  `cloneSig` is the oracle of `clone_file`. -/
def undofs_new_path (cloneSig : Bool) (root : List Char) (s : Sys) (path : List Char) :
    Int × List Char × Sys :=
  let r1 := undofs_latest_version root s path
  match undofs_versiondir_path root path with
  | none => (-1, [], { r1.2 with errno := ENAMETOOLONG })
  | some d =>
    let rdir := is_directory r1.2 d
    if rdir.1 then (-1, [], { rdir.2 with errno := EISDIR })
    else
      let version := r1.1
      let oldp := d ++ '/' :: intRepr version
      let newp := d ++ '/' :: intRepr (version + 1)
      if 0 ≤ version then
        let rdel := is_deleted rdir.2 d
        if rdel.1 then
          let ru := undelete rdel.2 d
          (0, newp, ru.2)
        else
          let rc := clone_file cloneSig rdel.2 oldp newp
          if rc.1 != 0 then (-1, newp, rc.2) else (0, newp, rc.2)
      else
        let rm := mkdirS rdir.2 d
        if rm.1 != 0 then (-1, newp, rm.2) else (0, newp, rm.2)

/-! ## Operation dispatcher (`src/undofs_fops.c`) -/

/-- Model of `undofs_truncate(path, newsize)`. -/
def undofs_truncate (root : List Char) (s : Sys) (path : List Char) (newsize : Nat) :
    Int × Sys :=
  let r := undofs_latest_path root s path
  if r.1 != 0 then (-(r.2.2.errno), r.2.2)
  else
    let rt := truncateS r.2.2 r.2.1 newsize
    if rt.1 < 0 then (-(rt.2.errno), rt.2) else (0, rt.2)

/-- Model of `undofs_utime(path, ubuf)`. -/
def undofs_utime (root : List Char) (s : Sys) (path : List Char) (t : Int) :
    Int × Sys :=
  let r := undofs_latest_path root s path
  if r.1 != 0 then (-(r.2.2.errno), r.2.2)
  else
    let rt := utimeS r.2.2 r.2.1 t
    if rt.1 < 0 then (-(rt.2.errno), rt.2) else (0, rt.2)

/-- Model of `undofs_unlink(path)`. -/
def undofs_unlink (root : List Char) (s : Sys) (path : List Char) : Int × Sys :=
  match undofs_versiondir_path root path with
  | none => (-ENAMETOOLONG, { s with errno := ENAMETOOLONG })
  | some d =>
    let rdir := is_directory s d
    if rdir.1 then (-EISDIR, rdir.2)
    else
      let rdel := is_deleted rdir.2 d
      if rdel.1 then (-ENOENT, rdel.2)
      else
        let rt := touch rdel.2 (d ++ delMark)
        if rt.1 != 0 then (- EIO, rt.2) else (0, rt.2)

/-- Model of `undofs_rmdir(path)` (note: the C handler returns the raw
`-1` of a failed mangling, and surfaces a failed tombstone creation as
`-EIO`). -/
def undofs_rmdir (root : List Char) (s : Sys) (path : List Char) : Int × Sys :=
  match undofs_versiondir_path root path with
  | none => (-1, { s with errno := ENAMETOOLONG })
  | some d =>
    let rt := touch s (d ++ delMark)
    if rt.1 != 0 then (- EIO, rt.2) else (0, rt.2)

/-- Model of `undofs_mkdir(path, mode)`.  `touchFail` is an oracle for an
external backing-store failure (for example `ENOSPC`) of the `open` call
inside `touch` when the `dir` sentinel is created; with `touchFail = false`
the call behaves per the store model.  Note the unconditional `rmdir` of
the freshly made directory after the sentinel-creation attempt. -/
def undofs_mkdir (touchFail : Bool) (root : List Char) (s : Sys) (path : List Char) :
    Int × Sys :=
  match undofs_versiondir_path root path with
  | none => (-ENAMETOOLONG, { s with errno := ENAMETOOLONG })
  | some d =>
    let rdel := is_deleted s d
    if rdel.1 then
      let ru := undelete rdel.2 d
      if ru.1 < 0 then (-(ru.2.errno), ru.2) else (0, ru.2)
    else
      let rm := mkdirS rdel.2 d
      if rm.1 < 0 then (-(rm.2.errno), rm.2)
      else
        let rt := if touchFail then (-1, { rm.2 with errno := ENOSPC })
                  else touch rm.2 (d ++ dirMark)
        let retval := if rt.1 != 0 then -(rt.2.errno) else 0
        let rr := rmdirS rt.2 d
        (retval, rr.2)

/-- Model of `undofs_create(path, mode, fi)`. -/
def undofs_create (cloneSig : Bool) (root : List Char) (s : Sys) (path : List Char) :
    Int × Sys :=
  let rn := undofs_new_path cloneSig root s path
  if rn.1 != 0 then (-(rn.2.2.errno), rn.2.2)
  else
    let rc := creatS rn.2.2 rn.2.1
    if rc.1 < 0 then (-(rc.2.errno), rc.2) else (0, rc.2)

/-- Node-type selector of `undofs_mknod` (`S_ISREG` / `S_ISFIFO` / other). -/
inductive MKind where
  | reg : MKind
  | fifo : MKind
  | other : MKind
deriving DecidableEq

/-- Model of `undofs_mknod(path, mode, dev)`. -/
def undofs_mknod (cloneSig : Bool) (root : List Char) (s : Sys) (path : List Char)
    (kind : MKind) : Int × Sys :=
  let rn := undofs_new_path cloneSig root s path
  if rn.1 != 0 then (-(rn.2.2.errno), rn.2.2)
  else
    match kind with
    | MKind.reg =>
      let ro := openExclS rn.2.2 rn.2.1
      if ro.1 < 0 then (-(ro.2.errno), ro.2) else (0, ro.2)
    | MKind.fifo =>
      let r := mkfifoS rn.2.2 rn.2.1
      if r.1 < 0 then (-(r.2.errno), r.2) else (0, r.2)
    | MKind.other =>
      let r := mknodSpecialS rn.2.2 rn.2.1
      if r.1 < 0 then (-(r.2.errno), r.2) else (0, r.2)

/-- Model of `undofs_symlink(target, link)`. -/
def undofs_symlink (cloneSig : Bool) (root : List Char) (s : Sys)
    (target link : List Char) : Int × Sys :=
  let rn := undofs_new_path cloneSig root s link
  if rn.1 != 0 then (-(rn.2.2.errno), rn.2.2)
  else
    let rs := symlinkS rn.2.2 target rn.2.1
    if rs.1 < 0 then (-(rs.2.errno), rs.2) else (0, rs.2)

/-- Model of `undofs_open(path, fi)`.  Note that the write-intent branch
of the C handler ignores the return value of `undofs_new_path` and opens
whatever is in the output buffer (the empty string after an `EISDIR`
failure). -/
def undofs_open (cloneSig : Bool) (root : List Char) (s : Sys) (path : List Char)
    (flags : Nat) : Int × Sys :=
  if writeIntent flags then
    let rn := undofs_new_path cloneSig root s path
    let ro := openS rn.2.2 rn.2.1 flags
    if ro.1 < 0 then (-(ro.2.errno), ro.2) else (0, ro.2)
  else
    let rl := undofs_latest_path root s path
    if rl.1 != 0 then (-(rl.2.2.errno), rl.2.2)
    else
      let ro := openS rl.2.2 rl.2.1 flags
      if ro.1 < 0 then (-(ro.2.errno), ro.2) else (0, ro.2)

/-- Model of `undofs_rename(path, newpath)`.  `cloneSig1` is the oracle of
the clone inside `undofs_new_path`, `cloneSig2` that of the final clone of
the latest revision.  In the regular-file branch the buffer `fpath` has
been overwritten with the latest-revision path of `path` before the
compensating `undelete(fpath)` runs. -/
def undofs_rename (cloneSig1 cloneSig2 : Bool) (root : List Char) (s : Sys)
    (path newpath : List Char) : Int × Sys :=
  match undofs_versiondir_path root path with
  | none => (-1, { s with errno := ENAMETOOLONG })
  | some d =>
    match undofs_versiondir_path root newpath with
    | none => (-1, { s with errno := ENAMETOOLONG })
    | some dNew =>
      let rdir := is_directory s d
      if rdir.1 then
        let ra := accessF rdir.2 dNew
        let rr := renameS ra.2 d dNew
        if rr.1 < 0 then (-(rr.2.errno), rr.2) else (0, rr.2)
      else
        let rl := undofs_latest_path root rdir.2 path
        if rl.1 != 0 then (-(rl.2.2.errno), rl.2.2)
        else
          let rn := undofs_new_path cloneSig1 root rl.2.2 newpath
          if rn.1 != 0 then (-(rn.2.2.errno), rn.2.2)
          else
            let ru := undofs_unlink root rn.2.2 path
            if ru.1 = 0 then
              let rc := clone_file cloneSig2 ru.2 rl.2.1 rn.2.1
              if rc.1 != 0 then
                let rud := undelete rc.2 rl.2.1
                (-(rc.2.errno), rud.2)
              else (0, rc.2)
            else (ru.1, ru.2)

/-! ## Facts about the decimal representation and the strtol scan -/

theorem digitChar_toNat (d : Nat) (h : d < 10) : (digitChar d).toNat = 48 + d := by
  interval_cases d <;> rfl

theorem isDigit_digitChar (d : Nat) (h : d < 10) : isDigit (digitChar d) = true := by
  interval_cases d <;> rfl

theorem decReprAux_digits :
    ∀ fuel n, n ≤ fuel + 9 → ∀ c ∈ decReprAux fuel n, isDigit c = true := by
  intro fuel
  induction fuel with
  | zero =>
    intro n hn c hc
    simp only [decReprAux, List.mem_singleton] at hc
    subst hc
    exact isDigit_digitChar n (by omega)
  | succ fuel ih =>
    intro n hn c hc
    by_cases h10 : n < 10
    · simp only [decReprAux, if_pos h10, List.mem_singleton] at hc
      subst hc
      exact isDigit_digitChar n h10
    · simp only [decReprAux, if_neg h10, List.mem_append, List.mem_singleton] at hc
      rcases hc with hc | hc
      · exact ih (n / 10) (by omega) c hc
      · subst hc
        exact isDigit_digitChar _ (Nat.mod_lt _ (by omega))

theorem decRepr_digits (n : Nat) : ∀ c ∈ decRepr n, isDigit c = true :=
  decReprAux_digits n n (by omega)

theorem decReprAux_ne_nil : ∀ fuel n, decReprAux fuel n ≠ [] := by
  intro fuel n
  cases fuel with
  | zero => simp [decReprAux]
  | succ fuel =>
    by_cases h10 : n < 10
    · simp [decReprAux, if_pos h10]
    · simp [decReprAux, if_neg h10]

theorem decRepr_ne_nil (n : Nat) : decRepr n ≠ [] := decReprAux_ne_nil n n

theorem digitsVal_append (xs ys : List Char) (hx : ∀ c ∈ xs, isDigit c = true) :
    ∀ acc, digitsVal (xs ++ ys) acc = digitsVal ys (digitsVal xs acc) := by
  induction xs with
  | nil => intro acc; simp [digitsVal]
  | cons c cs ih =>
    intro acc
    have hc : isDigit c = true := hx c (by simp)
    simp only [List.cons_append, digitsVal, hc, if_pos]
    exact ih (fun x hxm => hx x (by simp [hxm])) _

theorem decReprAux_val :
    ∀ fuel n, n ≤ fuel + 9 →
      ∀ acc, digitsVal (decReprAux fuel n) acc =
        acc * 10 ^ (decReprAux fuel n).length + n := by
  intro fuel
  induction fuel with
  | zero =>
    intro n hn acc
    have h10 : n < 10 := by omega
    simp [decReprAux, digitsVal, isDigit_digitChar n h10, digitChar_toNat n h10]
  | succ fuel ih =>
    intro n hn acc
    by_cases h10 : n < 10
    · simp [decReprAux, if_pos h10, digitsVal, isDigit_digitChar n h10, digitChar_toNat n h10]
    · have hdiv : n / 10 ≤ fuel + 9 := by
        have := Nat.div_le_self n 10
        have := Nat.div_lt_self (show 0 < n by omega) (show 1 < 10 by omega)
        omega
      have hmod : n % 10 < 10 := Nat.mod_lt _ (by omega)
      rw [decReprAux, if_neg h10]
      rw [digitsVal_append _ _ (fun c hc => decReprAux_digits fuel (n / 10) hdiv c hc)]
      rw [ih (n / 10) hdiv acc]
      simp [digitsVal, isDigit_digitChar _ hmod, digitChar_toNat _ hmod, List.length_append]
      have hdm : 10 * (n / 10) + n % 10 = n := Nat.div_add_mod n 10
      ring_nf
      omega

theorem isSpace_eq_false_of_isDigit (c : Char) (h : isDigit c = true) : isSpace c = false := by
  have hn : 48 ≤ c.toNat := by
    simp only [isDigit, Bool.and_eq_true, decide_eq_true_eq] at h
    exact h.1
  by_contra hsp
  have hsp : isSpace c = true := by revert hsp; cases isSpace c <;> simp
  simp only [isSpace, Bool.or_eq_true, beq_iff_eq] at hsp
  rcases hsp with ((((h1 | h1) | h1) | h1) | h1) | h1 <;> subst h1 <;> simp at hn

theorem ne_minus_of_isDigit (c : Char) (h : isDigit c = true) : c ≠ '-' := by
  intro he
  subst he
  simp [isDigit] at h

theorem ne_plus_of_isDigit (c : Char) (h : isDigit c = true) : c ≠ '+' := by
  intro he
  subst he
  simp [isDigit] at h

theorem strtol10_decRepr (n : Nat) : strtol10 (decRepr n) = (n : Int) := by
  obtain ⟨c, t, hct⟩ : ∃ c t, decRepr n = c :: t := by
    cases h : decRepr n with
    | nil => exact absurd h (decRepr_ne_nil n)
    | cons c t => exact ⟨c, t, rfl⟩
  have hc : isDigit c = true := decRepr_digits n c (by rw [hct]; simp)
  have hval : digitsVal (decRepr n) 0 = n := by
    have := decReprAux_val n n (by omega) 0
    simpa using this
  unfold strtol10
  rw [hct]
  rw [List.dropWhile_cons_of_neg (by simp [isSpace_eq_false_of_isDigit c hc])]
  have hminus := ne_minus_of_isDigit c hc
  have hplus := ne_plus_of_isDigit c hc
  split
  · next heq =>
    injection heq with h1 _
    exact absurd h1 hminus
  · next heq =>
    injection heq with h1 _
    exact absurd h1 hplus
  · rw [← hct, hval]

theorem decRepr_inj {a b : Nat} (h : decRepr a = decRepr b) : a = b := by
  have ha := strtol10_decRepr a
  have hb := strtol10_decRepr b
  rw [h, hb] at ha
  exact_mod_cast ha.symm

theorem ne_slash_of_isDigit (c : Char) (h : isDigit c = true) : (c != '/') = true := by
  simp only [bne_iff_ne, ne_eq]
  intro he
  subst he
  simp [isDigit] at h

theorem noSlash_decRepr (n : Nat) : noSlash (decRepr n) = true := by
  simp only [noSlash, List.all_eq_true]
  intro c hc
  exact ne_slash_of_isDigit c (decRepr_digits n c hc)

/-! ## Facts about the revision scan of `undofs_latest_version` -/

theorem strtolStep_max (mx : Int) (e : List Char) : strtolStep mx e = max mx (strtol10 e) := by
  unfold strtolStep
  rcases le_or_lt (strtol10 e) mx with h | h
  · rw [if_neg (by omega), max_eq_left h]
  · rw [if_pos h, max_eq_right (le_of_lt h)]

theorem foldl_step_perm {l1 l2 : List (List Char)} (h : l1.Perm l2) :
    ∀ b : Int, l1.foldl strtolStep b = l2.foldl strtolStep b := by
  induction h with
  | nil => intro b; rfl
  | cons x _ ih => intro b; simp only [List.foldl_cons]; exact ih _
  | swap x y l =>
    intro b
    simp only [List.foldl_cons, strtolStep_max]
    rw [sup_right_comm]
  | trans _ _ ih1 ih2 => intro b; rw [ih1, ih2]

theorem foldl_step_ge : ∀ (l : List (List Char)) (b : Int), b ≤ l.foldl strtolStep b := by
  intro l
  induction l with
  | nil => intro b; simp
  | cons e l ih =>
    intro b
    refine le_trans ?_ (ih (strtolStep b e))
    rw [strtolStep_max]
    exact le_max_left _ _

theorem foldl_revs :
    ∀ (N : Nat) (b : Int),
      ((List.range N).map decRepr).foldl strtolStep b =
        if N = 0 then b else max b ((N : Int) - 1) := by
  intro N
  induction N with
  | zero => intro b; simp
  | succ N ih =>
    intro b
    rw [List.range_succ, List.map_append, List.foldl_append, ih]
    rcases Nat.eq_zero_or_pos N with h | h
    · subst h
      simp [strtolStep_max, strtol10_decRepr]
    · rw [if_neg (by omega), if_neg (by omega)]
      simp only [List.map_cons, List.map_nil, List.foldl_cons, List.foldl_nil,
        strtolStep_max, strtol10_decRepr]
      rw [max_assoc]
      congr 1
      rw [max_eq_right (by omega)]
      push_cast
      ring

/-- The name of the tombstone child (`deleted`) as a directory entry. -/
def deletedName : List Char := ['d', 'e', 'l', 'e', 't', 'e', 'd']

/-- The name of the directory-sentinel child (`dir`) as a directory entry. -/
def dirName : List Char := ['d', 'i', 'r']

theorem undofs_latest_version_of_perm (root : List Char) (s : Sys) (path d : List Char)
    (names : List (List Char))
    (hvd : undofs_versiondir_path root path = some d)
    (hdir : lookupKey s.store d = some Node.dir)
    (hch : (childNames s.store d).Perm names) :
    undofs_latest_version root s path = (names.foldl strtolStep 0, s) := by
  simp only [undofs_latest_version, hvd, hdir]
  have h1 : (dirListing s.store d).foldl strtolStep (-1) =
      (childNames s.store d).foldl strtolStep 0 := by
    have e1 : strtolStep (-1) ['.'] = 0 := by decide
    have e2 : strtolStep 0 ['.', '.'] = 0 := by decide
    simp only [dirListing, List.foldl_cons, e1, e2]
  rw [h1, foldl_step_perm hch]

/-! ## Facts about the store model -/

theorem lookupKey_cons (k : List Char) (v : Node) (st : Store) (q : List Char) :
    lookupKey ((k, v) :: st) q = if k = q then some v else lookupKey st q := rfl

theorem lookupKey_filter_ne (st : Store) (k q : List Char) (hne : q ≠ k) :
    lookupKey (st.filter (fun e => e.1 != k)) q = lookupKey st q := by
  induction st with
  | nil => rfl
  | cons e st ih =>
    rcases e with ⟨k1, v1⟩
    by_cases h1 : k1 = k
    · subst h1
      rw [List.filter_cons_of_neg (by simp), lookupKey_cons, if_neg (fun h => hne h.symm), ih]
    · rw [List.filter_cons_of_pos (by simp [h1]), lookupKey_cons, lookupKey_cons, ih]

theorem lookupKey_filter_self (st : Store) (k : List Char) :
    lookupKey (st.filter (fun e => e.1 != k)) k = none := by
  induction st with
  | nil => rfl
  | cons e st ih =>
    rcases e with ⟨k1, v1⟩
    by_cases h1 : k1 = k
    · subst h1
      rw [List.filter_cons_of_neg (by simp), ih]
    · rw [List.filter_cons_of_pos (by simp [h1]), lookupKey_cons, if_neg h1, ih]

theorem filter_eq_self_of_lookup_none (st : Store) (k : List Char)
    (h : lookupKey st k = none) : st.filter (fun e => e.1 != k) = st := by
  induction st with
  | nil => rfl
  | cons e st ih =>
    rcases e with ⟨k1, v1⟩
    rw [lookupKey_cons] at h
    by_cases h1 : k1 = k
    · rw [if_pos h1] at h; exact absurd h (by simp)
    · rw [if_neg h1] at h
      rw [List.filter_cons_of_pos (by simp [h1]), ih h]

theorem lookupKey_updateKey_self (st : Store) (k : List Char) (v : Node) :
    lookupKey (updateKey st k v) k = (lookupKey st k).map (fun _ => v) := by
  induction st with
  | nil => rfl
  | cons e st ih =>
    rcases e with ⟨k1, v1⟩
    show lookupKey ((if k1 = k then (k, v) else (k1, v1)) :: updateKey st k v) k =
      (if k1 = k then some v1 else lookupKey st k).map (fun _ => v)
    by_cases h1 : k1 = k
    · rw [if_pos h1, if_pos h1, lookupKey_cons, if_pos rfl]
      rfl
    · rw [if_neg h1, if_neg h1, lookupKey_cons, if_neg h1]
      exact ih

theorem lookupKey_updateKey_ne (st : Store) (k q : List Char) (v : Node) (h : q ≠ k) :
    lookupKey (updateKey st k v) q = lookupKey st q := by
  induction st with
  | nil => rfl
  | cons e st ih =>
    rcases e with ⟨k1, v1⟩
    show lookupKey ((if k1 = k then (k, v) else (k1, v1)) :: updateKey st k v) q =
      lookupKey ((k1, v1) :: st) q
    by_cases h1 : k1 = k
    · subst h1
      rw [if_pos rfl, lookupKey_cons, lookupKey_cons]
      rw [if_neg (fun he => h he.symm), if_neg (fun he => h he.symm)]
      exact ih
    · rw [if_neg h1, lookupKey_cons, lookupKey_cons]
      by_cases h2 : k1 = q
      · rw [if_pos h2, if_pos h2]
      · rw [if_neg h2, if_neg h2]
        exact ih

theorem isPref_self_append (l t : List Char) : l.isPrefixOf (l ++ t) = true := by
  induction l with
  | nil => simp [List.isPrefixOf]
  | cons c l ih => simp [List.isPrefixOf, ih]

theorem isPref_eq_append {d k : List Char} (h : d.isPrefixOf k = true) :
    k = d ++ k.drop d.length := by
  induction d generalizing k with
  | nil => simp
  | cons c dt ih =>
    cases k with
    | nil => simp [List.isPrefixOf] at h
    | cons a as =>
      simp only [List.isPrefixOf, Bool.and_eq_true, beq_iff_eq] at h
      obtain ⟨h1, h2⟩ := h
      subst h1
      simpa using ih h2

theorem childNameOf_append (d nm : List Char) (h1 : nm ≠ []) (h2 : noSlash nm = true) :
    childNameOf d (d ++ '/' :: nm) = some nm := by
  unfold childNameOf
  rw [if_pos (isPref_self_append d ('/' :: nm))]
  rw [List.drop_left]
  simp [h1, h2]

theorem childNameOf_eq_some {d k nm : List Char} (h : childNameOf d k = some nm) :
    k = d ++ '/' :: nm ∧ nm ≠ [] ∧ noSlash nm = true := by
  unfold childNameOf at h
  by_cases hp : d.isPrefixOf k
  · rw [if_pos hp] at h
    have hk := isPref_eq_append hp
    cases hd : k.drop d.length with
    | nil => rw [hd] at h; simp at h
    | cons c rest =>
      rw [hd] at h
      rw [hd] at hk
      split at h
      · next rest2 heq =>
        injection heq with he1 he2
        subst he2
        split at h
        · next hcond =>
          injection h with h
          subst h
          exact ⟨by rw [hk, he1], hcond.1, hcond.2⟩
        · exact absurd h (by simp)
      · exact absurd h (by simp)
  · rw [if_neg hp] at h
    exact absurd h (by simp)

theorem childNames_cons (k : List Char) (v : Node) (st : Store) (d : List Char) :
    childNames ((k, v) :: st) d =
      match childNameOf d k with
      | some nm => nm :: childNames st d
      | none => childNames st d := by
  simp only [childNames, List.filterMap_cons]
  cases childNameOf d k <;> rfl

theorem lookup_some_mem_childNames {st : Store} {d nm : List Char} {v : Node}
    (h : lookupKey st (d ++ '/' :: nm) = some v) (h1 : nm ≠ []) (h2 : noSlash nm = true) :
    nm ∈ childNames st d := by
  induction st with
  | nil => simp [lookupKey] at h
  | cons e st ih =>
    rcases e with ⟨k1, v1⟩
    rw [lookupKey_cons] at h
    rw [childNames_cons]
    by_cases hk : k1 = d ++ '/' :: nm
    · subst hk
      rw [childNameOf_append d nm h1 h2]
      simp
    · rw [if_neg hk] at h
      have hmem := ih h
      cases childNameOf d k1 with
      | none => exact hmem
      | some nm1 => simp [hmem]

theorem lookup_none_of_not_mem_childNames {st : Store} {d nm : List Char}
    (hmem : nm ∉ childNames st d) (h1 : nm ≠ []) (h2 : noSlash nm = true) :
    lookupKey st (d ++ '/' :: nm) = none := by
  cases h : lookupKey st (d ++ '/' :: nm) with
  | none => rfl
  | some v => exact absurd (lookup_some_mem_childNames h h1 h2) hmem

theorem takeWhile_append_all (p : Char → Bool) (l1 l2 : List Char)
    (h : ∀ c ∈ l1, p c = true) : (l1 ++ l2).takeWhile p = l1 ++ l2.takeWhile p := by
  induction l1 with
  | nil => simp
  | cons c l1 ih =>
    simp only [List.cons_append, List.takeWhile_cons, h c (by simp), if_pos]
    rw [ih (fun x hx => h x (by simp [hx]))]

theorem dropWhile_append_all (p : Char → Bool) (l1 l2 : List Char)
    (h : ∀ c ∈ l1, p c = true) : (l1 ++ l2).dropWhile p = l2.dropWhile p := by
  induction l1 with
  | nil => simp
  | cons c l1 ih =>
    simp only [List.cons_append, List.dropWhile_cons, h c (by simp), if_pos]
    exact ih (fun x hx => h x (by simp [hx]))

theorem mem_of_noSlash {t : List Char} (h : noSlash t = true) :
    ∀ c ∈ t, (c != '/') = true := by
  intro c hc
  exact List.all_eq_true.mp h c hc

theorem parentOf_append (d nm : List Char) (h : noSlash nm = true) :
    parentOf (d ++ '/' :: nm) = d := by
  unfold parentOf
  rw [List.reverse_append, List.reverse_cons, List.append_assoc]
  rw [dropWhile_append_all _ _ _ (fun c hc => mem_of_noSlash h c (List.mem_reverse.mp hc))]
  simp

theorem lastComp_append (a t : List Char) (h : noSlash t = true) :
    lastComp (a ++ '/' :: t) = t := by
  unfold lastComp
  rw [List.reverse_append, List.reverse_cons, List.append_assoc]
  rw [takeWhile_append_all _ _ _ (fun c hc => mem_of_noSlash h c (List.mem_reverse.mp hc))]
  simp

theorem append_ne_of_tail_ne (d : List Char) {x y : List Char} (h : x ≠ y) :
    d ++ x ≠ d ++ y :=
  fun he => h (List.append_cancel_left he)

theorem ne_append_cons (d : List Char) (c : Char) (t : List Char) : d ≠ d ++ c :: t := by
  intro h
  have hl : (d : List Char).length = (d ++ c :: t).length := by rw [← h]
  simp at hl

theorem decRepr_ne_deletedName (n : Nat) : decRepr n ≠ deletedName := by
  intro h
  have hd := decRepr_digits n 'd' (by rw [h]; simp [deletedName])
  exact absurd hd (by decide)

theorem decRepr_ne_dirName (n : Nat) : decRepr n ≠ dirName := by
  intro h
  have hd := decRepr_digits n 'd' (by rw [h]; simp [dirName])
  exact absurd hd (by decide)

theorem deletedName_not_mem_revs (N : Nat) :
    deletedName ∉ (List.range N).map decRepr := by
  simp only [List.mem_map, not_exists]
  rintro k ⟨_, hk⟩
  exact decRepr_ne_deletedName k hk

theorem dirName_not_mem_revs (N : Nat) :
    dirName ∉ (List.range N).map decRepr := by
  simp only [List.mem_map, not_exists]
  rintro k ⟨_, hk⟩
  exact decRepr_ne_dirName k hk

theorem decRepr_not_mem_revs (N : Nat) :
    decRepr N ∉ (List.range N).map decRepr := by
  simp only [List.mem_map, not_exists]
  rintro k ⟨hk, he⟩
  have := decRepr_inj he
  subst this
  exact absurd (List.mem_range.mp hk) (lt_irrefl _)

theorem delMark_eq : delMark = '/' :: deletedName := rfl

theorem dirMark_eq : dirMark = '/' :: dirName := rfl

theorem noSlash_deletedName : noSlash deletedName = true := by decide

theorem noSlash_dirName : noSlash dirName = true := by decide

/-- Backing path of revision `n` inside version directory `d`. -/
def revKey (d : List Char) (n : Nat) : List Char := d ++ '/' :: decRepr n

/-! ## Characterization of the engine primitives on a live regular file -/

theorem lookup_delMark_none {s : Store} {d : List Char} {N : Nat}
    (hch : (childNames s d).Perm ((List.range N).map decRepr)) :
    lookupKey s (d ++ delMark) = none := by
  rw [delMark_eq]
  apply lookup_none_of_not_mem_childNames _ (by simp [deletedName]) noSlash_deletedName
  intro hmem
  exact deletedName_not_mem_revs N (hch.mem_iff.mp hmem)

theorem lookup_dirMark_none {s : Store} {d : List Char} {N : Nat}
    (hch : (childNames s d).Perm ((List.range N).map decRepr)) :
    lookupKey s (d ++ dirMark) = none := by
  rw [dirMark_eq]
  apply lookup_none_of_not_mem_childNames _ (by simp [dirName]) noSlash_dirName
  intro hmem
  exact dirName_not_mem_revs N (hch.mem_iff.mp hmem)

theorem lookup_revN_none {s : Store} {d : List Char} {N : Nat}
    (hch : (childNames s d).Perm ((List.range N).map decRepr)) :
    lookupKey s (revKey d N) = none := by
  apply lookup_none_of_not_mem_childNames _ (decRepr_ne_nil N) (noSlash_decRepr N)
  intro hmem
  exact decRepr_not_mem_revs N (hch.mem_iff.mp hmem)

theorem is_deleted_false {s : Sys} {d : List Char}
    (h : lookupKey s.store (d ++ delMark) = none) :
    is_deleted s d = (false, { s with errno := ENOENT }) := by
  simp [is_deleted, accessF, h]

theorem is_deleted_true {s : Sys} {d : List Char} {v : Node}
    (h : lookupKey s.store (d ++ delMark) = some v) :
    is_deleted s d = (true, s) := by
  simp [is_deleted, accessF, h]

theorem is_directory_false {s : Sys} {d : List Char}
    (h : lookupKey s.store (d ++ dirMark) = none) :
    is_directory s d = (false, { s with errno := ENOENT }) := by
  simp [is_directory, accessF, h]

theorem is_directory_true {s : Sys} {d : List Char} {v : Node}
    (h : lookupKey s.store (d ++ dirMark) = some v) :
    is_directory s d = (true, s) := by
  simp [is_directory, accessF, h]

theorem intRepr_coe_sub_one {N : Nat} (hN : 1 ≤ N) :
    intRepr ((N : Int) - 1) = decRepr (N - 1) := by
  unfold intRepr
  rw [if_neg (by omega)]
  congr 1
  omega

theorem undofs_latest_version_live (root : List Char) (s : Sys) (path d : List Char)
    (N : Nat)
    (hvd : undofs_versiondir_path root path = some d)
    (hdir : lookupKey s.store d = some Node.dir)
    (hch : (childNames s.store d).Perm ((List.range N).map decRepr))
    (hN : 1 ≤ N) :
    undofs_latest_version root s path = ((N : Int) - 1, s) := by
  rw [undofs_latest_version_of_perm root s path d _ hvd hdir hch]
  rw [foldl_revs, if_neg (by omega), max_eq_right (by omega)]

theorem undofs_latest_path_live (root : List Char) (s : Sys) (path d : List Char)
    (N : Nat)
    (hvd : undofs_versiondir_path root path = some d)
    (hdir : lookupKey s.store d = some Node.dir)
    (hch : (childNames s.store d).Perm ((List.range N).map decRepr))
    (hN : 1 ≤ N) :
    undofs_latest_path root s path = (0, revKey d (N - 1), { s with errno := ENOENT }) := by
  have hdel : lookupKey s.store (d ++ delMark) = none := lookup_delMark_none hch
  have hdm : lookupKey s.store (d ++ dirMark) = none := lookup_dirMark_none hch
  simp only [undofs_latest_path, undofs_latest_version_live root s path d N hvd hdir hch hN,
    hvd, is_deleted_false hdel]
  simp only [is_directory_false (show lookupKey (Sys.store { s with errno := ENOENT }) (d ++ dirMark) = none from hdm)]
  simp only [Bool.false_eq_true, if_false, intRepr_coe_sub_one hN]
  rfl

theorem revKey_ne {d : List Char} {m n : Nat} (h : m ≠ n) : revKey d m ≠ revKey d n := by
  unfold revKey
  apply append_ne_of_tail_ne
  intro he
  injection he with _ h1
  exact h (decRepr_inj h1)

/-! ## Claim C1 -/

/-- A backing store holding the live regular file `/f` with the single
revision `0` (content bytes `[65, 66]`, mtime 7) under backing root `/r`. -/
def liveStoreC1 : Store :=
  [("/r".toList, Node.dir), ("/r/f.node".toList, Node.dir),
   ("/r/f.node/0".toList, Node.file [65, 66] 7)]

/-- Claim C1 counterexample: on the live file `/f` with sole revision `0`,
`truncate("/f", 1)` rewrites the content of the already-written revision
`0` in place (from `[65, 66]` to `[65]`) and allocates no revision `1`,
and `utime("/f", 99)` likewise rewrites revision `0` (mtime 7 to 99); the
claim states revision `0` is never modified and a new revision `1` is
allocated first. -/
theorem C1_counterexample :
    lookupKey (undofs_truncate "/r".toList ⟨liveStoreC1, 0⟩ "/f".toList 1).2.store
        "/r/f.node/0".toList = some (Node.file [65] 7) ∧
    lookupKey (undofs_truncate "/r".toList ⟨liveStoreC1, 0⟩ "/f".toList 1).2.store
        "/r/f.node/1".toList = none ∧
    lookupKey liveStoreC1 "/r/f.node/0".toList = some (Node.file [65, 66] 7) ∧
    lookupKey (undofs_utime "/r".toList ⟨liveStoreC1, 0⟩ "/f".toList 99).2.store
        "/r/f.node/0".toList = some (Node.file [65, 66] 99) ∧
    lookupKey (undofs_utime "/r".toList ⟨liveStoreC1, 0⟩ "/f".toList 99).2.store
        "/r/f.node/1".toList = none := by
  decide

/-- Claim C1 (amended): for every user path P in state live regular file
with revisions 0..N-1 (not tombstoned, no dir sentinel), truncate(P, size)
and utime(P, times) resolve P through the latest-revision (read) path, not
through resolve-for-write: no next revision N is allocated, and the size or
time change is applied in place to the existing latest revision N-1; all
other keys of the backing store are untouched. -/
theorem C1_truncate_utime_in_place
    (root : List Char) (s : Sys) (path d : List Char) (N : Nat) (c : List Nat) (t : Int)
    (sz : Nat) (tnew : Int)
    (hvd : undofs_versiondir_path root path = some d)
    (hdir : lookupKey s.store d = some Node.dir)
    (hch : (childNames s.store d).Perm ((List.range N).map decRepr))
    (hN : 1 ≤ N)
    (hrev : lookupKey s.store (revKey d (N - 1)) = some (Node.file c t)) :
    ((undofs_truncate root s path sz).1 = 0 ∧
     (undofs_truncate root s path sz).2.store =
       updateKey s.store (revKey d (N - 1)) (Node.file (truncContent c sz) t) ∧
     lookupKey (undofs_truncate root s path sz).2.store (revKey d N) = none ∧
     ∀ k, k ≠ revKey d (N - 1) →
       lookupKey (undofs_truncate root s path sz).2.store k = lookupKey s.store k) ∧
    ((undofs_utime root s path tnew).1 = 0 ∧
     (undofs_utime root s path tnew).2.store =
       updateKey s.store (revKey d (N - 1)) (Node.file c tnew) ∧
     lookupKey (undofs_utime root s path tnew).2.store (revKey d N) = none ∧
     ∀ k, k ≠ revKey d (N - 1) →
       lookupKey (undofs_utime root s path tnew).2.store k = lookupKey s.store k) := by
  have hlp := undofs_latest_path_live root s path d N hvd hdir hch hN
  have hne : revKey d N ≠ revKey d (N - 1) := revKey_ne (by omega)
  have hrevN : lookupKey s.store (revKey d N) = none := lookup_revN_none hch
  constructor
  · have ht : undofs_truncate root s path sz =
        (0, { store := updateKey s.store (revKey d (N - 1)) (Node.file (truncContent c sz) t),
              errno := ENOENT }) := by
      simp only [undofs_truncate, hlp]
      simp only [truncateS, show lookupKey (Sys.store { s with errno := ENOENT }) (revKey d (N - 1)) = some (Node.file c t) from hrev]
      rfl
    rw [ht]
    refine ⟨rfl, rfl, ?_, ?_⟩
    · rw [lookupKey_updateKey_ne _ _ _ _ hne]
      exact hrevN
    · intro k hk
      exact lookupKey_updateKey_ne _ _ _ _ hk
  · have ht : undofs_utime root s path tnew =
        (0, { store := updateKey s.store (revKey d (N - 1)) (Node.file c tnew),
              errno := ENOENT }) := by
      simp only [undofs_utime, hlp]
      simp only [utimeS, show lookupKey (Sys.store { s with errno := ENOENT }) (revKey d (N - 1)) = some (Node.file c t) from hrev]
      rfl
    rw [ht]
    refine ⟨rfl, rfl, ?_, ?_⟩
    · rw [lookupKey_updateKey_ne _ _ _ _ hne]
      exact hrevN
    · intro k hk
      exact lookupKey_updateKey_ne _ _ _ _ hk

/-- Witness for C1: the amended theorem applied to the concrete live store
of the counterexample with N = 1. -/
theorem C1_witness :
    (undofs_versiondir_path "/r".toList "/f".toList = some "/r/f.node".toList ∧
     lookupKey liveStoreC1 "/r/f.node".toList = some Node.dir ∧
     (childNames liveStoreC1 "/r/f.node".toList).Perm ((List.range 1).map decRepr) ∧
     lookupKey liveStoreC1 (revKey "/r/f.node".toList 0) = some (Node.file [65, 66] 7)) ∧
    (undofs_truncate "/r".toList ⟨liveStoreC1, 0⟩ "/f".toList 1).1 = 0 ∧
    (undofs_utime "/r".toList ⟨liveStoreC1, 0⟩ "/f".toList 99).1 = 0 := by
  refine ⟨⟨by decide, by decide, by decide, by decide⟩, ?_, ?_⟩
  · exact (C1_truncate_utime_in_place "/r".toList ⟨liveStoreC1, 0⟩ "/f".toList
      "/r/f.node".toList 1 [65, 66] 7 1 99 (by decide) (by decide) (by decide)
      (by decide) (by decide)).1.1
  · exact (C1_truncate_utime_in_place "/r".toList ⟨liveStoreC1, 0⟩ "/f".toList
      "/r/f.node".toList 1 [65, 66] 7 1 99 (by decide) (by decide) (by decide)
      (by decide) (by decide)).2.1

/-! ## Claim C2 -/

/-- A backing store where the version directory of `/x` exists but holds
only the `deleted` sentinel (no numeric revisions). -/
def sentinelStoreC2 : Store :=
  [("/r".toList, Node.dir), ("/r/x.node".toList, Node.dir),
   ("/r/x.node/deleted".toList, Node.file [] 0)]

/-- Claim C2 counterexample: for a version directory that exists and holds
only the sentinel `deleted`, `undofs_latest_version` returns 0, not −1 —
the non-numeric entry names (`.`, `..`, `deleted`) are not ignored but
contribute `strtol(name) = 0` to the max scan, so a sentinel-only D(P)
does not behave as Absent. -/
theorem C2_counterexample :
    (undofs_latest_version "/r".toList ⟨sentinelStoreC2, 0⟩ "/x".toList).1 = 0 ∧
    (undofs_latest_version "/r".toList ⟨sentinelStoreC2, 0⟩ "/x".toList).1 ≠ -1 := by
  decide

/-- Claim C2 (amended): latest-revision returns −1 when D(P) does not exist
on the backing store; but when D(P) exists as a directory the scan folds
`strtol` over every entry of the listing — `.` and `..` (always present)
and sentinel names parse as 0 rather than being ignored — so the result is
never −1 for an existing directory (in particular a sentinel-only or
revision-free D(P) yields 0 and does not behave as Absent). -/
theorem C2_latest_version_scan (root : List Char) (s : Sys) (path d : List Char)
    (hvd : undofs_versiondir_path root path = some d) :
    (lookupKey s.store d = none →
      undofs_latest_version root s path = (-1, { s with errno := ENOENT })) ∧
    (lookupKey s.store d = some Node.dir →
      0 ≤ (undofs_latest_version root s path).1) := by
  constructor
  · intro h
    simp [undofs_latest_version, hvd, h]
  · intro h
    rw [undofs_latest_version_of_perm root s path d _ hvd h (List.Perm.refl _)]
    exact foldl_step_ge _ 0

/-- Witness for C2: the amended theorem applied to an absent path and to
the sentinel-only store of the counterexample. -/
theorem C2_witness :
    undofs_versiondir_path "/r".toList "/x".toList = some "/r/x.node".toList ∧
    undofs_latest_version "/r".toList ⟨[("/r".toList, Node.dir)], 0⟩ "/x".toList =
      (-1, ⟨[("/r".toList, Node.dir)], ENOENT⟩) ∧
    0 ≤ (undofs_latest_version "/r".toList ⟨sentinelStoreC2, 0⟩ "/x".toList).1 := by
  refine ⟨by decide, ?_, ?_⟩
  · exact (C2_latest_version_scan "/r".toList ⟨[("/r".toList, Node.dir)], 0⟩
      "/x".toList "/r/x.node".toList (by decide)).1 (by decide)
  · exact (C2_latest_version_scan "/r".toList ⟨sentinelStoreC2, 0⟩
      "/x".toList "/r/x.node".toList (by decide)).2 (by decide)

/-! ## Claim C3 -/

/-- Claim C3 (code bug): on the live regular file `/f` with revision `0`,
`rename("/f", "/g")` whose final clone fails (the `cp` child is killed by
a signal, oracle `cloneSig2 = true`) leaves the tombstone
`/r/f.node/deleted` in place: the compensating `undelete(fpath)` is
applied to the clobbered buffer `fpath`, which at that point holds the
latest-revision path `/r/f.node/0`, so it unlinks the nonexistent
`/r/f.node/0/deleted` instead of `/r/f.node/deleted`.  The handler does
return a negative errno (−ENOENT here), but `/f` stays tombstoned instead
of being restored to its prior live state as the claim (and the spec)
require. -/
theorem C3_rename_clone_failure_keeps_tombstone :
    (undofs_rename false true "/r".toList ⟨liveStoreC1, 0⟩ "/f".toList "/g".toList).1 = -2 ∧
    lookupKey
        (undofs_rename false true "/r".toList ⟨liveStoreC1, 0⟩ "/f".toList "/g".toList).2.store
        "/r/f.node/deleted".toList = some (Node.file [] 0) ∧
    lookupKey
        (undofs_rename false true "/r".toList ⟨liveStoreC1, 0⟩ "/f".toList "/g".toList).2.store
        "/r/f.node/0".toList = some (Node.file [65, 66] 7) := by
  decide

/-! ## Claim C4 -/

theorem undofs_latest_version_store (root : List Char) (s : Sys) (path : List Char) :
    (undofs_latest_version root s path).2.store = s.store := by
  cases hvd : undofs_versiondir_path root path with
  | none => simp [undofs_latest_version, hvd]
  | some d =>
    cases h : lookupKey s.store d with
    | none => simp [undofs_latest_version, hvd, h]
    | some v => cases v <;> simp [undofs_latest_version, hvd, h]

theorem undofs_new_path_isdir (cloneSig : Bool) (root : List Char) (s : Sys)
    (path d : List Char) (nd : Node)
    (hvd : undofs_versiondir_path root path = some d)
    (hdm : lookupKey s.store (d ++ dirMark) = some nd) :
    undofs_new_path cloneSig root s path = (-1, [], ⟨s.store, EISDIR⟩) := by
  have hst := undofs_latest_version_store root s path
  simp only [undofs_new_path, hvd]
  rw [is_directory_true (by rw [hst]; exact hdm)]
  simp only [if_pos]
  rw [Prod.mk.injEq, Prod.mk.injEq]
  refine ⟨rfl, rfl, ?_⟩
  show Sys.mk (undofs_latest_version root s path).2.store EISDIR = ⟨s.store, EISDIR⟩
  rw [hst]

/-- A backing store holding the live directory `/d` (dir sentinel present)
under backing root `/r`. -/
def dirStoreC4 : Store :=
  [("/r".toList, Node.dir), ("/r/d.node".toList, Node.dir),
   ("/r/d.node/dir".toList, Node.file [] 0)]

/-- Claim C4 counterexample: `open("/d", O_WRONLY)` on the live directory
`/d` returns −ENOENT (−2), not −EISDIR (−21): the handler ignores the
failed return of `undofs_new_path` and opens the empty output buffer. -/
theorem C4_counterexample :
    (undofs_open false "/r".toList ⟨dirStoreC4, 0⟩ "/d".toList 1).1 = -2 ∧
    (undofs_open false "/r".toList ⟨dirStoreC4, 0⟩ "/d".toList 1).1 ≠ -EISDIR := by
  decide

/-- Claim C4 (amended): for every user path P whose D(P) carries the dir
sentinel, create(P), mknod(P) and symlink(target, P) fail with −EISDIR
because resolve-for-write fails with EISDIR; open(P) with write intent
(O_WRONLY or O_RDWR), however, ignores the resolve-for-write failure,
attempts to open the empty backing path left in the buffer, and returns
−ENOENT.  None of the four operations changes the backing store. -/
theorem C4_write_ops_on_directory (root : List Char) (s : Sys) (path d target : List Char)
    (kind : MKind) (flags : Nat) (cloneSig : Bool) (nd : Node)
    (hvd : undofs_versiondir_path root path = some d)
    (hdm : lookupKey s.store (d ++ dirMark) = some nd)
    (hw : writeIntent flags = true)
    (hempty : lookupKey s.store [] = none) :
    undofs_create cloneSig root s path = (-EISDIR, ⟨s.store, EISDIR⟩) ∧
    undofs_mknod cloneSig root s path kind = (-EISDIR, ⟨s.store, EISDIR⟩) ∧
    undofs_symlink cloneSig root s target path = (-EISDIR, ⟨s.store, EISDIR⟩) ∧
    undofs_open cloneSig root s path flags = (-ENOENT, ⟨s.store, ENOENT⟩) := by
  have hnp := undofs_new_path_isdir cloneSig root s path d nd hvd hdm
  refine ⟨?_, ?_, ?_, ?_⟩
  · simp [undofs_create, hnp]
  · simp [undofs_mknod, hnp]
  · simp [undofs_symlink, hnp]
  · simp [undofs_open, hw, hnp, openS, hempty]

/-- Witness for C4: the amended theorem applied to the live directory
store of the counterexample. -/
theorem C4_witness :
    (undofs_versiondir_path "/r".toList "/d".toList = some "/r/d.node".toList ∧
     lookupKey dirStoreC4 ("/r/d.node".toList ++ dirMark) = some (Node.file [] 0) ∧
     writeIntent 1 = true ∧
     lookupKey dirStoreC4 [] = none) ∧
    undofs_create false "/r".toList ⟨dirStoreC4, 0⟩ "/d".toList =
      (-EISDIR, ⟨dirStoreC4, EISDIR⟩) ∧
    undofs_open false "/r".toList ⟨dirStoreC4, 0⟩ "/d".toList 1 =
      (-ENOENT, ⟨dirStoreC4, ENOENT⟩) := by
  refine ⟨⟨by decide, by decide, by decide, by decide⟩, ?_, ?_⟩
  · exact (C4_write_ops_on_directory "/r".toList ⟨dirStoreC4, 0⟩ "/d".toList
      "/r/d.node".toList "/t".toList MKind.reg 1 false (Node.file [] 0)
      (by decide) (by decide) (by decide) (by decide)).1
  · exact (C4_write_ops_on_directory "/r".toList ⟨dirStoreC4, 0⟩ "/d".toList
      "/r/d.node".toList "/t".toList MKind.reg 1 false (Node.file [] 0)
      (by decide) (by decide) (by decide) (by decide)).2.2.2

/-! ## Claim C5 -/

/-- Claim C5 counterexample: `rmdir("/x")` with `D(/x)` absent on the
backing store returns −EIO (−5), not −ENOENT (−2) as the claim states:
the handler unconditionally tries to create `D(/x)/deleted`, the creation
fails with ENOENT because `D(/x)` is missing, and the handler maps every
tombstone-creation failure to −EIO. -/
theorem C5_counterexample :
    (undofs_rmdir "/r".toList ⟨[("/r".toList, Node.dir)], 0⟩ "/x".toList).1 = - EIO ∧
    (undofs_rmdir "/r".toList ⟨[("/r".toList, Node.dir)], 0⟩ "/x".toList).1 ≠ -ENOENT := by
  decide

/-- Claim C5 (amended): rmdir(P) invoked on a path in the Absent state
(D(P) does not exist on the backing store) fails and returns −EIO (the
unconditional creation of D(P)/deleted fails and the handler surfaces
every such failure as EIO); the backing store is left unchanged. -/
theorem C5_rmdir_absent_eio (root : List Char) (s : Sys) (path d : List Char)
    (hvd : undofs_versiondir_path root path = some d)
    (habs : lookupKey s.store d = none) :
    (undofs_rmdir root s path).1 = - EIO ∧
    (undofs_rmdir root s path).2.store = s.store := by
  have hpar : parentOf (d ++ delMark) = d := by
    rw [delMark_eq]
    exact parentOf_append d deletedName noSlash_deletedName
  cases h : lookupKey s.store (d ++ delMark) with
  | some v => simp [undofs_rmdir, hvd, touch, openExclS, h]
  | none => simp [undofs_rmdir, hvd, touch, openExclS, h, hpar, habs]

/-- Witness for C5: the amended theorem applied to a backing store holding
only the root directory. -/
theorem C5_witness :
    (undofs_versiondir_path "/r".toList "/x".toList = some "/r/x.node".toList ∧
     lookupKey [("/r".toList, Node.dir)] "/r/x.node".toList = none) ∧
    (undofs_rmdir "/r".toList ⟨[("/r".toList, Node.dir)], 0⟩ "/x".toList).1 = - EIO ∧
    (undofs_rmdir "/r".toList ⟨[("/r".toList, Node.dir)], 0⟩ "/x".toList).2.store =
      [("/r".toList, Node.dir)] := by
  refine ⟨⟨by decide, by decide⟩, ?_⟩
  exact C5_rmdir_absent_eio "/r".toList ⟨[("/r".toList, Node.dir)], 0⟩ "/x".toList
    "/r/x.node".toList (by decide) (by decide)

/-! ## Claim C6 -/

/-- Claim C6 (confirmed): unlink(P) returns −EISDIR when D(P) carries the
dir sentinel; returns −ENOENT when D(P) is already tombstoned; otherwise
creates the empty marker file D(P)/deleted and returns 0 when the creation
succeeds (D(P) exists as a directory), and surfaces a creation failure as
−EIO; in every case no key other than D(P)/deleted is touched, so no
revision file is removed or modified. -/
theorem C6_unlink_spec (root : List Char) (s : Sys) (path d : List Char)
    (hvd : undofs_versiondir_path root path = some d) :
    ((∃ v, lookupKey s.store (d ++ dirMark) = some v) →
      (undofs_unlink root s path).1 = -EISDIR ∧
      (undofs_unlink root s path).2.store = s.store) ∧
    (lookupKey s.store (d ++ dirMark) = none →
      (∃ v, lookupKey s.store (d ++ delMark) = some v) →
      (undofs_unlink root s path).1 = -ENOENT ∧
      (undofs_unlink root s path).2.store = s.store) ∧
    (lookupKey s.store (d ++ dirMark) = none →
      lookupKey s.store (d ++ delMark) = none →
      lookupKey s.store d = some Node.dir →
      (undofs_unlink root s path).1 = 0 ∧
      (undofs_unlink root s path).2.store = (d ++ delMark, Node.file [] 0) :: s.store) ∧
    (lookupKey s.store (d ++ dirMark) = none →
      lookupKey s.store (d ++ delMark) = none →
      lookupKey s.store d ≠ some Node.dir →
      (undofs_unlink root s path).1 = - EIO ∧
      (undofs_unlink root s path).2.store = s.store) ∧
    (∀ k, k ≠ d ++ delMark →
      lookupKey (undofs_unlink root s path).2.store k = lookupKey s.store k) := by
  have hpar : parentOf (d ++ delMark) = d := by
    rw [delMark_eq]
    exact parentOf_append d deletedName noSlash_deletedName
  cases hdm : lookupKey s.store (d ++ dirMark) with
  | some v =>
    have hres : undofs_unlink root s path = (-EISDIR, s) := by
      simp [undofs_unlink, hvd, is_directory_true hdm]
    rw [hres]
    exact ⟨fun _ => ⟨rfl, rfl⟩, fun h _ => by simp at h,
      fun h _ _ => by simp at h, fun h _ _ => by simp at h,
      fun k _ => rfl⟩
  | none =>
    cases hdel : lookupKey s.store (d ++ delMark) with
    | some v =>
      have hres : undofs_unlink root s path = (-ENOENT, ⟨s.store, ENOENT⟩) := by
        simp [undofs_unlink, hvd, is_directory_false hdm,
          is_deleted_true
            (show lookupKey (Sys.store { s with errno := ENOENT }) (d ++ delMark) = some v
              from hdel)]
      rw [hres]
      exact ⟨fun h => by obtain ⟨w, hw⟩ := h; simp at hw,
        fun _ _ => ⟨rfl, rfl⟩, fun _ h _ => by simp at h,
        fun _ h _ => by simp at h, fun k _ => rfl⟩
    | none =>
      cases hd : lookupKey s.store d with
      | some nodev =>
        cases nodev with
        | dir =>
          have hres : undofs_unlink root s path =
              (0, ⟨(d ++ delMark, Node.file [] 0) :: s.store, ENOENT⟩) := by
            simp [undofs_unlink, hvd, is_directory_false hdm,
              is_deleted_false
                (show lookupKey (Sys.store { s with errno := ENOENT }) (d ++ delMark) = none
                  from hdel),
              touch, openExclS, hdel, hpar, hd]
          rw [hres]
          refine ⟨fun h => by obtain ⟨w, hw⟩ := h; simp at hw,
            fun _ h => by obtain ⟨w, hw⟩ := h; simp at hw,
            fun _ _ _ => ⟨rfl, rfl⟩, fun _ _ h => absurd rfl h, ?_⟩
          intro k hk
          show lookupKey ((d ++ delMark, Node.file [] 0) :: s.store) k = lookupKey s.store k
          rw [lookupKey_cons, if_neg (fun he => hk he.symm)]
        | file c t =>
          have hres : undofs_unlink root s path = (- EIO, ⟨s.store, ENOTDIR⟩) := by
            simp [undofs_unlink, hvd, is_directory_false hdm,
              is_deleted_false
                (show lookupKey (Sys.store { s with errno := ENOENT }) (d ++ delMark) = none
                  from hdel),
              touch, openExclS, hdel, hpar, hd]
          rw [hres]
          exact ⟨fun h => by obtain ⟨w, hw⟩ := h; simp at hw,
            fun _ h => by obtain ⟨w, hw⟩ := h; simp at hw,
            fun _ _ h => by simp at h, fun _ _ _ => ⟨rfl, rfl⟩, fun k _ => rfl⟩
        | fifo =>
          have hres : undofs_unlink root s path = (- EIO, ⟨s.store, ENOTDIR⟩) := by
            simp [undofs_unlink, hvd, is_directory_false hdm,
              is_deleted_false
                (show lookupKey (Sys.store { s with errno := ENOENT }) (d ++ delMark) = none
                  from hdel),
              touch, openExclS, hdel, hpar, hd]
          rw [hres]
          exact ⟨fun h => by obtain ⟨w, hw⟩ := h; simp at hw,
            fun _ h => by obtain ⟨w, hw⟩ := h; simp at hw,
            fun _ _ h => by simp at h, fun _ _ _ => ⟨rfl, rfl⟩, fun k _ => rfl⟩
        | special =>
          have hres : undofs_unlink root s path = (- EIO, ⟨s.store, ENOTDIR⟩) := by
            simp [undofs_unlink, hvd, is_directory_false hdm,
              is_deleted_false
                (show lookupKey (Sys.store { s with errno := ENOENT }) (d ++ delMark) = none
                  from hdel),
              touch, openExclS, hdel, hpar, hd]
          rw [hres]
          exact ⟨fun h => by obtain ⟨w, hw⟩ := h; simp at hw,
            fun _ h => by obtain ⟨w, hw⟩ := h; simp at hw,
            fun _ _ h => by simp at h, fun _ _ _ => ⟨rfl, rfl⟩, fun k _ => rfl⟩
        | symlink tgt =>
          have hres : undofs_unlink root s path = (- EIO, ⟨s.store, ENOTDIR⟩) := by
            simp [undofs_unlink, hvd, is_directory_false hdm,
              is_deleted_false
                (show lookupKey (Sys.store { s with errno := ENOENT }) (d ++ delMark) = none
                  from hdel),
              touch, openExclS, hdel, hpar, hd]
          rw [hres]
          exact ⟨fun h => by obtain ⟨w, hw⟩ := h; simp at hw,
            fun _ h => by obtain ⟨w, hw⟩ := h; simp at hw,
            fun _ _ h => by simp at h, fun _ _ _ => ⟨rfl, rfl⟩, fun k _ => rfl⟩
      | none =>
        have hres : undofs_unlink root s path = (- EIO, ⟨s.store, ENOENT⟩) := by
          simp [undofs_unlink, hvd, is_directory_false hdm,
            is_deleted_false
              (show lookupKey (Sys.store { s with errno := ENOENT }) (d ++ delMark) = none
                from hdel),
            touch, openExclS, hdel, hpar, hd]
        rw [hres]
        exact ⟨fun h => by obtain ⟨w, hw⟩ := h; simp at hw,
          fun _ h => by obtain ⟨w, hw⟩ := h; simp at hw,
          fun _ _ h => by simp at h, fun _ _ _ => ⟨rfl, rfl⟩, fun k _ => rfl⟩

/-- Witness for C6: the characterization applied to the live regular file
`/f` with one revision (the tombstone is created and revision `0` is left
untouched). -/
theorem C6_witness :
    (undofs_versiondir_path "/r".toList "/f".toList = some "/r/f.node".toList ∧
     lookupKey liveStoreC1 ("/r/f.node".toList ++ dirMark) = none ∧
     lookupKey liveStoreC1 ("/r/f.node".toList ++ delMark) = none ∧
     lookupKey liveStoreC1 "/r/f.node".toList = some Node.dir) ∧
    (undofs_unlink "/r".toList ⟨liveStoreC1, 0⟩ "/f".toList).1 = 0 ∧
    (undofs_unlink "/r".toList ⟨liveStoreC1, 0⟩ "/f".toList).2.store =
      ("/r/f.node".toList ++ delMark, Node.file [] 0) :: liveStoreC1 := by
  refine ⟨⟨by decide, by decide, by decide, by decide⟩, ?_⟩
  exact (C6_unlink_spec "/r".toList ⟨liveStoreC1, 0⟩ "/f".toList "/r/f.node".toList
    (by decide)).2.2.1 (by decide) (by decide) (by decide)

/-! ## Claim C7 -/

theorem intRepr_coe (N : Nat) : intRepr (N : Int) = decRepr N := by
  unfold intRepr
  rw [if_neg (by omega)]
  congr 1

/-- Claim C7 (confirmed): for every path P whose D(P) is a live regular
file with revisions 0..N-1, after unlink(P) followed by a successful
create(P, mode): both calls return 0; D(P) contains the revisions 0..N-1
unchanged plus the new revision N (a number strictly higher than every
prior revision, which did not exist before); the deleted marker is absent
(untombstoned); and the new revision N is written fresh as an empty
newly-created file — the tombstone branch of resolve-for-write skips the
clone, so revision N does not start as a copy of revision N-1. -/
theorem C7_unlink_create_next_revision (root : List Char) (s : Sys) (path d : List Char)
    (N : Nat) (cloneSig : Bool)
    (hvd : undofs_versiondir_path root path = some d)
    (hdir : lookupKey s.store d = some Node.dir)
    (hch : (childNames s.store d).Perm ((List.range N).map decRepr))
    (hN : 1 ≤ N) :
    (undofs_unlink root s path).1 = 0 ∧
    (undofs_create cloneSig root (undofs_unlink root s path).2 path).1 = 0 ∧
    lookupKey (undofs_create cloneSig root (undofs_unlink root s path).2 path).2.store
      (d ++ delMark) = none ∧
    lookupKey (undofs_create cloneSig root (undofs_unlink root s path).2 path).2.store
      (revKey d N) = some (Node.file [] 0) ∧
    (∀ n, n < N →
      lookupKey (undofs_create cloneSig root (undofs_unlink root s path).2 path).2.store
        (revKey d n) = lookupKey s.store (revKey d n)) ∧
    lookupKey s.store (revKey d N) = none := by
  have hdm : lookupKey s.store (d ++ dirMark) = none := lookup_dirMark_none hch
  have hdel : lookupKey s.store (d ++ delMark) = none := lookup_delMark_none hch
  have hrevN : lookupKey s.store (revKey d N) = none := lookup_revN_none hch
  have hne1 : d ++ delMark ≠ d := by
    rw [delMark_eq]
    exact fun he => ne_append_cons d '/' deletedName he.symm
  have hne2 : d ++ delMark ≠ d ++ dirMark := append_ne_of_tail_ne d (by decide)
  have hne3 : revKey d N ≠ d ++ delMark := by
    unfold revKey
    rw [delMark_eq]
    apply append_ne_of_tail_ne
    intro he
    injection he with _ h1
    exact decRepr_ne_deletedName N h1
  have hpar : parentOf (d ++ delMark) = d := by
    rw [delMark_eq]
    exact parentOf_append d deletedName noSlash_deletedName
  have hparN : parentOf (revKey d N) = d :=
    parentOf_append d (decRepr N) (noSlash_decRepr N)
  -- the unlink step
  have h1 : undofs_unlink root s path =
      (0, ⟨(d ++ delMark, Node.file [] 0) :: s.store, ENOENT⟩) := by
    simp [undofs_unlink, hvd, is_directory_false hdm,
      is_deleted_false
        (show lookupKey (Sys.store { s with errno := ENOENT }) (d ++ delMark) = none
          from hdel),
      touch, openExclS, hdel, hpar, hdir]
  -- the store after unlink
  have hdir1 : lookupKey ((d ++ delMark, Node.file [] 0) :: s.store) d = some Node.dir := by
    rw [lookupKey_cons, if_neg hne1]
    exact hdir
  have hdm1 : lookupKey ((d ++ delMark, Node.file [] 0) :: s.store) (d ++ dirMark) = none := by
    rw [lookupKey_cons, if_neg hne2]
    exact hdm
  have hdel1 : lookupKey ((d ++ delMark, Node.file [] 0) :: s.store) (d ++ delMark) =
      some (Node.file [] 0) := by
    rw [lookupKey_cons, if_pos rfl]
  have hchEq : childNames ((d ++ delMark, Node.file [] 0) :: s.store) d =
      deletedName :: childNames s.store d := by
    rw [childNames_cons]
    rw [show childNameOf d (d ++ delMark) = some deletedName from by
      rw [delMark_eq]
      exact childNameOf_append d deletedName (by decide) noSlash_deletedName]
  have hlv1 : undofs_latest_version root ⟨(d ++ delMark, Node.file [] 0) :: s.store, ENOENT⟩
      path = ((N : Int) - 1, ⟨(d ++ delMark, Node.file [] 0) :: s.store, ENOENT⟩) := by
    rw [undofs_latest_version_of_perm root _ path d
      (deletedName :: (List.range N).map decRepr) hvd hdir1 (by rw [hchEq]; exact hch.cons _)]
    rw [List.foldl_cons, show strtolStep 0 deletedName = 0 from by decide]
    rw [foldl_revs, if_neg (by omega), max_eq_right (by omega)]
  -- the resolve-for-write step inside create: untombstone, no clone
  have h2 : undofs_new_path cloneSig root
      ⟨(d ++ delMark, Node.file [] 0) :: s.store, ENOENT⟩ path =
      (0, revKey d N, ⟨s.store, ENOENT⟩) := by
    simp only [undofs_new_path, hvd, hlv1]
    rw [is_directory_false hdm1]
    simp only [Bool.false_eq_true, if_false]
    rw [if_pos (show (0 : Int) ≤ (N : Int) - 1 by omega)]
    rw [is_deleted_true hdel1]
    simp only [if_pos]
    have hfil : ((d ++ delMark, Node.file [] 0) :: s.store).filter
        (fun e => e.1 != (d ++ delMark)) = s.store := by
      rw [List.filter_cons_of_neg (by simp)]
      exact filter_eq_self_of_lookup_none s.store (d ++ delMark) hdel
    simp only [undelete, unlinkS, hdel1, hfil]
    rw [show (N : Int) - 1 + 1 = (N : Int) by ring, intRepr_coe]
    rfl
  -- the create call
  have h3 : undofs_create cloneSig root
      ⟨(d ++ delMark, Node.file [] 0) :: s.store, ENOENT⟩ path =
      (0, ⟨(revKey d N, Node.file [] 0) :: s.store, ENOENT⟩) := by
    simp only [undofs_create, h2]
    simp [creatS, hrevN, hparN, hdir]
  rw [h1]
  refine ⟨rfl, ?_, ?_, ?_, ?_, hrevN⟩
  · rw [h3]
  · rw [h3]
    show lookupKey ((revKey d N, Node.file [] 0) :: s.store) (d ++ delMark) = none
    rw [lookupKey_cons, if_neg hne3]
    exact hdel
  · rw [h3]
    show lookupKey ((revKey d N, Node.file [] 0) :: s.store) (revKey d N) =
      some (Node.file [] 0)
    rw [lookupKey_cons, if_pos rfl]
  · intro n hn
    rw [h3]
    show lookupKey ((revKey d N, Node.file [] 0) :: s.store) (revKey d n) =
      lookupKey s.store (revKey d n)
    rw [lookupKey_cons, if_neg (fun he => revKey_ne (show N ≠ n by omega) he)]

/-- Witness for C7: the theorem applied to the live file `/f` with one
revision; the fresh revision `1` appears, revision `0` survives, the
tombstone is gone. -/
theorem C7_witness :
    (undofs_versiondir_path "/r".toList "/f".toList = some "/r/f.node".toList ∧
     lookupKey liveStoreC1 "/r/f.node".toList = some Node.dir ∧
     (childNames liveStoreC1 "/r/f.node".toList).Perm ((List.range 1).map decRepr)) ∧
    (undofs_unlink "/r".toList ⟨liveStoreC1, 0⟩ "/f".toList).1 = 0 ∧
    (undofs_create false "/r".toList (undofs_unlink "/r".toList ⟨liveStoreC1, 0⟩
      "/f".toList).2 "/f".toList).1 = 0 ∧
    lookupKey (undofs_create false "/r".toList (undofs_unlink "/r".toList ⟨liveStoreC1, 0⟩
      "/f".toList).2 "/f".toList).2.store (revKey "/r/f.node".toList 1) =
      some (Node.file [] 0) := by
  have happ := C7_unlink_create_next_revision "/r".toList ⟨liveStoreC1, 0⟩ "/f".toList
    "/r/f.node".toList 1 false (by decide) (by decide) (by decide) (by decide)
  exact ⟨⟨by decide, by decide, by decide⟩, happ.1, happ.2.1, happ.2.2.2.1⟩

/-! ## Claim C10 -/

theorem isPref_length {l1 l2 : List Char} (h : l1.isPrefixOf l2 = true) :
    l1.length ≤ l2.length := by
  induction l1 generalizing l2 with
  | nil => simp
  | cons c t ih =>
    cases l2 with
    | nil => simp [List.isPrefixOf] at h
    | cons a as =>
      simp only [List.isPrefixOf, Bool.and_eq_true] at h
      simpa using ih h.2

theorem underDir_self (d : List Char) : underDir d d = false := by
  unfold underDir
  by_cases h : (d ++ ['/']).isPrefixOf d = true
  · have := isPref_length h
    simp at this
  · simp only [Bool.not_eq_true] at h
    exact h

theorem underDir_append (d t : List Char) : underDir d (d ++ '/' :: t) = true := by
  unfold underDir
  have he : d ++ '/' :: t = (d ++ ['/']) ++ t := by simp
  rw [he]
  exact isPref_self_append _ _

/-- Claim C10 (confirmed): mkdir(P) from the Absent state is atomic on
error.  If the creation of the dir sentinel inside the freshly created
D(P) fails (modelled by the `touchFail = true` oracle, e.g. ENOSPC), the
handler's unconditional `rmdir(D(P))` removes the just-created empty
directory again and the backing store is exactly as before, with a
negative return; when sentinel creation succeeds the same `rmdir` call
fails with ENOTEMPTY on the now non-empty D(P), which persists containing
the dir sentinel, and mkdir returns 0. -/
theorem C10_mkdir_atomic (root : List Char) (s : Sys) (path d : List Char)
    (hvd : undofs_versiondir_path root path = some d)
    (habs : lookupKey s.store d = none)
    (hdel : lookupKey s.store (d ++ delMark) = none)
    (hdm : lookupKey s.store (d ++ dirMark) = none)
    (hpar : lookupKey s.store (parentOf d) = some Node.dir)
    (hnoch : ∀ e ∈ s.store, underDir d e.1 = false) :
    ((undofs_mkdir true root s path).1 < 0 ∧
     (undofs_mkdir true root s path).2.store = s.store) ∧
    ((undofs_mkdir false root s path).1 = 0 ∧
     (undofs_mkdir false root s path).2.store =
       (d ++ dirMark, Node.file [] 0) :: (d, Node.dir) :: s.store ∧
     lookupKey (undofs_mkdir false root s path).2.store d = some Node.dir ∧
     lookupKey (undofs_mkdir false root s path).2.store (d ++ dirMark) =
       some (Node.file [] 0)) := by
  have hneDirM : d ≠ d ++ dirMark := by
    rw [dirMark_eq]
    exact ne_append_cons d '/' dirName
  have hparDM : parentOf (d ++ dirMark) = d := by
    rw [dirMark_eq]
    exact parentOf_append d dirName noSlash_dirName
  have hmkS : mkdirS ⟨s.store, ENOENT⟩ d = (0, ⟨(d, Node.dir) :: s.store, ENOENT⟩) := by
    simp [mkdirS, habs, hpar]
  have hanyF : ((d, Node.dir) :: s.store).any (fun e => underDir d e.1) = false := by
    rw [List.any_cons]
    simp only [underDir_self, Bool.false_or]
    rw [List.any_eq_false]
    intro e he
    simp [hnoch e he]
  have hfil : ((d, Node.dir) :: s.store).filter (fun e => e.1 != d) = s.store := by
    rw [List.filter_cons_of_neg (by simp)]
    exact filter_eq_self_of_lookup_none s.store d habs
  constructor
  · -- sentinel creation fails: the rmdir rolls the store back
    have hres : undofs_mkdir true root s path = (-ENOSPC, ⟨s.store, ENOSPC⟩) := by
      simp only [undofs_mkdir, hvd, is_deleted_false hdel]
      simp only [Bool.false_eq_true, if_false, hmkS]
      simp only [if_true]
      simp [rmdirS, lookupKey_cons, hanyF, hfil, ENOSPC]
    rw [hres]
    exact ⟨by simp [ENOSPC], rfl⟩
  · -- sentinel creation succeeds: the rmdir fails with ENOTEMPTY
    have htouch : touch ⟨(d, Node.dir) :: s.store, ENOENT⟩ (d ++ dirMark) =
        (0, ⟨(d ++ dirMark, Node.file [] 0) :: (d, Node.dir) :: s.store, ENOENT⟩) := by
      have hlk : lookupKey ((d, Node.dir) :: s.store) (d ++ dirMark) = none := by
        rw [lookupKey_cons, if_neg hneDirM]
        exact hdm
      have hlp : lookupKey ((d, Node.dir) :: s.store) (parentOf (d ++ dirMark)) =
          some Node.dir := by
        rw [hparDM, lookupKey_cons, if_pos rfl]
      simp [touch, openExclS, hlk, hlp]
    have hany2 : ((d ++ dirMark, Node.file [] 0) :: (d, Node.dir) :: s.store).any
        (fun e => underDir d e.1) = true := by
      rw [List.any_cons]
      have : underDir d (d ++ dirMark) = true := by
        rw [dirMark_eq]
        exact underDir_append d dirName
      simp [this]
    have hres : undofs_mkdir false root s path =
        (0, ⟨(d ++ dirMark, Node.file [] 0) :: (d, Node.dir) :: s.store, ENOTEMPTY⟩) := by
      simp only [undofs_mkdir, hvd, is_deleted_false hdel]
      simp only [Bool.false_eq_true, if_false, hmkS]
      simp only [if_false, htouch]
      have hlk2 : lookupKey ((d ++ dirMark, Node.file [] 0) :: (d, Node.dir) :: s.store) d =
          some Node.dir := by
        rw [lookupKey_cons, if_neg (fun he => hneDirM he.symm), lookupKey_cons, if_pos rfl]
      simp [rmdirS, hlk2, hany2]
    rw [hres]
    refine ⟨rfl, rfl, ?_, ?_⟩
    · show lookupKey ((d ++ dirMark, Node.file [] 0) :: (d, Node.dir) :: s.store) d =
        some Node.dir
      rw [lookupKey_cons, if_neg (fun he => hneDirM he.symm), lookupKey_cons, if_pos rfl]
    · show lookupKey ((d ++ dirMark, Node.file [] 0) :: (d, Node.dir) :: s.store)
        (d ++ dirMark) = some (Node.file [] 0)
      rw [lookupKey_cons, if_pos rfl]

/-- Witness for C10: the theorem applied to a store holding only the
backing root, creating `/d`. -/
theorem C10_witness :
    (undofs_versiondir_path "/r".toList "/d".toList = some "/r/d.node".toList ∧
     lookupKey [("/r".toList, Node.dir)] "/r/d.node".toList = none ∧
     lookupKey [("/r".toList, Node.dir)] (parentOf "/r/d.node".toList) = some Node.dir) ∧
    (undofs_mkdir true "/r".toList ⟨[("/r".toList, Node.dir)], 0⟩ "/d".toList).1 < 0 ∧
    (undofs_mkdir true "/r".toList ⟨[("/r".toList, Node.dir)], 0⟩ "/d".toList).2.store =
      [("/r".toList, Node.dir)] ∧
    (undofs_mkdir false "/r".toList ⟨[("/r".toList, Node.dir)], 0⟩ "/d".toList).1 = 0 := by
  have happ := C10_mkdir_atomic "/r".toList ⟨[("/r".toList, Node.dir)], 0⟩ "/d".toList
    "/r/d.node".toList (by decide) (by decide) (by decide) (by decide) (by decide)
    (by decide)
  exact ⟨⟨by decide, by decide, by decide⟩, happ.1.1, happ.1.2, happ.2.1⟩

/-! ## Claim C8 -/

theorem noDbl_tail {c : Char} {cs : List Char} (h : noDbl (c :: cs) = true) :
    noDbl cs = true := by
  cases cs with
  | nil => rfl
  | cons c2 rest =>
    simp only [noDbl, Bool.and_eq_true] at h
    exact h.2

theorem noDbl_slash_head {cs : List Char} (h : noDbl ('/' :: cs) = true) :
    cs.head? ≠ some '/' := by
  cases cs with
  | nil => simp
  | cons c2 rest =>
    simp only [noDbl, beq_self_eq_true, Bool.true_and, Bool.and_eq_true,
      Bool.not_eq_true'] at h
    intro he
    simp only [List.head?_cons, Option.some.injEq] at he
    subst he
    simp at h

theorem sm_cons_slash_slash {cs : List Char} (h : cs.head? = some '/') :
    sm ('/' :: cs) = sm cs := by
  rw [sm, if_pos ⟨rfl, h⟩]

theorem sm_cons_slash {cs : List Char} (h : cs.head? ≠ some '/') :
    sm ('/' :: cs) = '.' :: 'n' :: 'o' :: 'd' :: 'e' :: '/' :: sm cs := by
  rw [sm, if_neg (fun hc => h hc.2), if_pos rfl]

theorem sm_cons_ne {c : Char} {cs : List Char} (h : c ≠ '/') :
    sm (c :: cs) = c :: sm cs := by
  rw [sm, if_neg (fun hc => h hc.1), if_neg h]

theorem sm_ne_slash_cons : ∀ (r X : List Char), sm r ≠ '/' :: X := by
  intro r
  induction r with
  | nil => intro X h; simp [sm] at h
  | cons c cs ih =>
    intro X h
    by_cases hc : c = '/'
    · subst hc
      by_cases hh : cs.head? = some '/'
      · rw [sm_cons_slash_slash hh] at h
        exact ih X h
      · rw [sm_cons_slash hh] at h
        injection h with h1 _
        exact absurd h1 (by decide)
    · rw [sm_cons_ne hc] at h
      injection h with h1 _
      exact hc h1

theorem sm_ne_nil : ∀ {r : List Char}, r ≠ [] → sm r ≠ [] := by
  intro r
  induction r with
  | nil => intro h; exact absurd rfl h
  | cons c cs ih =>
    intro _
    by_cases hc : c = '/'
    · subst hc
      by_cases hh : cs.head? = some '/'
      · rw [sm_cons_slash_slash hh]
        apply ih
        intro he
        rw [he] at hh
        simp at hh
      · rw [sm_cons_slash hh]
        simp
    · rw [sm_cons_ne hc]
      simp

theorem sm_cons_inv {cs : List Char} {a : Char} {X : List Char}
    (hnd : noDbl cs = true) (h : sm cs = a :: X) (ha : a ≠ '.') :
    ∃ cs2, cs = a :: cs2 ∧ a ≠ '/' ∧ X = sm cs2 ∧ noDbl cs2 = true := by
  cases cs with
  | nil => simp [sm] at h
  | cons c cs2 =>
    by_cases hc : c = '/'
    · subst hc
      rw [sm_cons_slash (noDbl_slash_head hnd)] at h
      injection h with h1 _
      exact absurd h1.symm ha
    · rw [sm_cons_ne hc] at h
      injection h with h1 h2
      subst h1
      exact ⟨cs2, rfl, hc, h2.symm, noDbl_tail hnd⟩

theorem gInv_nil : gInv [] = [] := by rw [gInv]

theorem gInv_cons_pat {cs : List Char} (h : cs.take 5 = ['n', 'o', 'd', 'e', '/']) :
    gInv ('.' :: cs) = '/' :: gInv (cs.drop 5) := by
  rw [gInv, if_pos ⟨rfl, h⟩]

theorem gInv_cons_ne {c : Char} {cs : List Char}
    (h : ¬(c = '.' ∧ cs.take 5 = ['n', 'o', 'd', 'e', '/'])) :
    gInv (c :: cs) = c :: gInv cs := by
  rw [gInv, if_neg h]

theorem gInv_sm : ∀ (r : List Char), noDbl r = true → gInv (sm r) = r := by
  intro r
  induction r with
  | nil =>
    intro _
    rw [show sm [] = [] from rfl]
    exact gInv_nil
  | cons c cs ih =>
    intro hnd
    by_cases hc : c = '/'
    · subst hc
      rw [sm_cons_slash (noDbl_slash_head hnd)]
      rw [gInv_cons_pat (by rfl)]
      rw [show ('n' :: 'o' :: 'd' :: 'e' :: '/' :: sm cs).drop 5 = sm cs from rfl]
      rw [ih (noDbl_tail hnd)]
    · rw [sm_cons_ne hc]
      rw [gInv_cons_ne ?hno]
      case hno =>
        rintro ⟨hdot, htake⟩
        subst hdot
        have hsm : sm cs = 'n' :: 'o' :: 'd' :: 'e' :: '/' :: (sm cs).drop 5 := by
          conv_lhs => rw [← List.take_append_drop 5 (sm cs)]
          rw [htake]
          rfl
        obtain ⟨cs2, _, _, hX2, hnd2⟩ := sm_cons_inv (noDbl_tail hnd) hsm (by decide)
        obtain ⟨cs3, _, _, hX3, hnd3⟩ := sm_cons_inv hnd2 hX2.symm (by decide)
        obtain ⟨cs4, _, _, hX4, hnd4⟩ := sm_cons_inv hnd3 hX3.symm (by decide)
        obtain ⟨cs5, _, _, hX5, hnd5⟩ := sm_cons_inv hnd4 hX4.symm (by decide)
        exact sm_ne_slash_cons cs5 _ hX5.symm
      rw [ih (noDbl_tail hnd)]

theorem sm_inj {r1 r2 : List Char} (h1 : noDbl r1 = true) (h2 : noDbl r2 = true)
    (he : sm r1 = sm r2) : r1 = r2 := by
  have hg := gInv_sm r1 h1
  rw [he, gInv_sm r2 h2] at hg
  exact hg.symm

theorem mangleCore_sound : ∀ (rest : List Char) (n : Nat) (m : List Char),
    mangleCore n rest = some m → m = sm rest := by
  intro rest
  induction rest with
  | nil =>
    intro n m h
    rw [show mangleCore n [] = some [] from rfl] at h
    injection h with h
    rw [← h]
    rfl
  | cons c cs ih =>
    intro n m h
    rw [mangleCore] at h
    by_cases h1 : c = '/' ∧ cs.head? = some '/'
    · rw [if_pos h1] at h
      rw [ih n m h, sm, if_pos h1]
    · rw [if_neg h1] at h
      by_cases h2 : n + 12 < PATH_MAX
      · rw [if_pos h2] at h
        by_cases h3 : c = '/'
        · rw [if_pos h3] at h
          cases hm : mangleCore (n + 6) cs with
          | none => rw [hm] at h; exact absurd h (by simp)
          | some tl =>
            rw [hm] at h
            injection h with h
            subst h3
            rw [sm_cons_slash (fun hh => h1 ⟨rfl, hh⟩), ← h, ih (n + 6) tl hm]
        · rw [if_neg h3] at h
          cases hm : mangleCore (n + 1) cs with
          | none => rw [hm] at h; exact absurd h (by simp)
          | some tl =>
            rw [hm] at h
            injection h with h
            rw [sm_cons_ne h3, ← h, ih (n + 1) tl hm]
      · rw [if_neg h2] at h
        exact absurd h (by simp)

theorem versiondir_eq {root p d : List Char} (hp : p ≠ ['/'])
    (h : undofs_versiondir_path root p = some d) :
    d = root ++ p.takeWhile (fun c => c == '/') ++ sm (p.dropWhile (fun c => c == '/')) ++
      (if (sm (p.dropWhile (fun c => c == '/'))).isEmpty then [] else nodeSuf) := by
  simp only [undofs_versiondir_path, if_neg hp] at h
  cases hm : mangleCore (root.length + (p.takeWhile (fun c => c == '/')).length)
      (p.dropWhile (fun c => c == '/')) with
  | none => rw [hm] at h; exact absurd h (by simp)
  | some m =>
    rw [hm] at h
    injection h with h
    rw [← h, mangleCore_sound _ _ _ hm]

theorem versiondir_structure {root p d : List Char}
    (hs : p.head? = some '/') (hn : noDbl p = true) (hp : p ≠ ['/'])
    (h : undofs_versiondir_path root p = some d) :
    ∃ tl, p = '/' :: tl ∧ tl ≠ [] ∧ noDbl tl = true ∧
      d = root ++ '/' :: (sm tl ++ nodeSuf) := by
  cases p with
  | nil => simp at hs
  | cons c tl =>
    simp only [List.head?_cons, Option.some.injEq] at hs
    subst hs
    have htl : tl ≠ [] := by
      intro he
      subst he
      exact hp rfl
    refine ⟨tl, rfl, htl, noDbl_tail hn, ?_⟩
    have heq := versiondir_eq hp h
    obtain ⟨c2, tl2, htl2⟩ : ∃ c2 tl2, tl = c2 :: tl2 := by
      cases tl with
      | nil => exact absurd rfl htl
      | cons a b => exact ⟨a, b, rfl⟩
    have hc2 : (c2 == '/') = false := by
      have hh := noDbl_slash_head hn
      rw [htl2] at hh
      simp only [List.head?_cons] at hh
      cases hb : c2 == '/'
      · rfl
      · exact absurd (congrArg some (beq_iff_eq.mp hb)) hh
    have hlead : ('/' :: tl).takeWhile (fun c => c == '/') = ['/'] := by
      rw [List.takeWhile_cons]
      simp only [beq_self_eq_true, if_true, if_pos]
      rw [htl2, List.takeWhile_cons, hc2]
      rfl
    have hrest : ('/' :: tl).dropWhile (fun c => c == '/') = tl := by
      rw [List.dropWhile_cons]
      simp only [beq_self_eq_true, if_true, if_pos]
      rw [htl2, List.dropWhile_cons, hc2]
      rfl
    rw [hlead, hrest] at heq
    rw [if_neg (by simp [List.isEmpty_iff]; exact sm_ne_nil htl)] at heq
    rw [heq]
    simp

/-- Claim C8 counterexample: the distinct absolute user paths `/a/b` and
`/a//b` both mangle successfully to the same version-directory path
`/r/a.node/b.node` — repeated internal slashes collapse, so the mangler is
not injective over all pairs of distinct absolute user paths. -/
theorem C8_counterexample :
    "/a/b".toList ≠ "/a//b".toList ∧
    undofs_versiondir_path "/r".toList "/a/b".toList =
      undofs_versiondir_path "/r".toList "/a//b".toList ∧
    (undofs_versiondir_path "/r".toList "/a/b".toList).isSome = true := by
  decide

/-- Claim C8 (amended): path mangling is injective on absolute user paths
with no repeated slash: for every pair of distinct user paths beginning
with `/`, neither containing `//`, whose manglings both succeed, the
version-directory paths are distinct.  (Paths differing only in repeated
internal separators collapse to the same D(P), hence the restriction.) -/
theorem C8_mangle_injective_canonical (root p1 p2 d1 d2 : List Char)
    (hs1 : p1.head? = some '/') (hs2 : p2.head? = some '/')
    (hn1 : noDbl p1 = true) (hn2 : noDbl p2 = true)
    (hne : p1 ≠ p2)
    (h1 : undofs_versiondir_path root p1 = some d1)
    (h2 : undofs_versiondir_path root p2 = some d2) :
    d1 ≠ d2 := by
  by_cases hp1 : p1 = ['/']
  · by_cases hp2 : p2 = ['/']
    · exact absurd (hp1.trans hp2.symm) hne
    · have hd1 : d1 = root := by
        rw [hp1] at h1
        simp [undofs_versiondir_path] at h1
        exact h1.symm
      obtain ⟨tl2, _, _, _, hd2⟩ := versiondir_structure hs2 hn2 hp2 h2
      intro he
      rw [hd1, hd2] at he
      have hlen := congrArg List.length he
      simp [List.length_append] at hlen
  · by_cases hp2 : p2 = ['/']
    · have hd2 : d2 = root := by
        rw [hp2] at h2
        simp [undofs_versiondir_path] at h2
        exact h2.symm
      obtain ⟨tl1, _, _, _, hd1⟩ := versiondir_structure hs1 hn1 hp1 h1
      intro he
      rw [hd1, hd2] at he
      have hlen := congrArg List.length he
      simp [List.length_append] at hlen
    · obtain ⟨tl1, hp1e, _, hnd1, hd1⟩ := versiondir_structure hs1 hn1 hp1 h1
      obtain ⟨tl2, hp2e, _, hnd2, hd2⟩ := versiondir_structure hs2 hn2 hp2 h2
      intro he
      rw [hd1, hd2] at he
      have h3 := List.append_cancel_left he
      injection h3 with _ h4
      have h5 := List.append_cancel_right h4
      have h6 := sm_inj hnd1 hnd2 h5
      rw [hp1e, hp2e, h6] at hne
      exact hne rfl

/-- Witness for C8: the amended theorem applied to the distinct canonical
paths `/a` and `/b`, whose manglings are distinct. -/
theorem C8_witness :
    ("/a".toList.head? = some '/' ∧ "/b".toList.head? = some '/' ∧
     noDbl "/a".toList = true ∧ noDbl "/b".toList = true ∧
     "/a".toList ≠ "/b".toList ∧
     undofs_versiondir_path "/r".toList "/a".toList = some "/r/a.node".toList ∧
     undofs_versiondir_path "/r".toList "/b".toList = some "/r/b.node".toList) ∧
    "/r/a.node".toList ≠ "/r/b.node".toList := by
  refine ⟨⟨by decide, by decide, by decide, by decide, by decide, by decide, by decide⟩, ?_⟩
  exact C8_mangle_injective_canonical "/r".toList "/a".toList "/b".toList
    "/r/a.node".toList "/r/b.node".toList (by decide) (by decide) (by decide)
    (by decide) (by decide) (by decide) (by decide)

/-! ## Claim C9 -/

theorem noSlash_append {a b : List Char} (ha : noSlash a = true) (hb : noSlash b = true) :
    noSlash (a ++ b) = true := by
  simp only [noSlash, List.all_append, Bool.and_eq_true]
  exact ⟨ha, hb⟩

theorem noSlash_nodeSuf : noSlash nodeSuf = true := by decide

theorem noSlash_tail {c : Char} {cs : List Char} (h : noSlash (c :: cs) = true) :
    noSlash cs = true := by
  simp only [noSlash, List.all_cons, Bool.and_eq_true] at h
  exact h.2

theorem cleanLoop_clean : ∀ (u : List Char), noSlash u = true → ∀ dlc,
    cleanLoop 0 dlc (u ++ nodeSuf) = (true, u) := by
  intro u
  induction u with
  | nil =>
    intro _ dlc
    show cleanLoop 0 dlc nodeSuf = (true, [])
    rfl
  | cons c u2 ih =>
    intro hns dlc
    have hc : (c != '/') = true := mem_of_noSlash hns c (by simp)
    have hceq : (c == '/') = false := by
      simp only [bne] at hc
      cases hb : c == '/'
      · rfl
      · rw [hb] at hc
        exact absurd hc (by decide)
    have hns2 : noSlash u2 = true := noSlash_tail hns
    show cleanLoop 0 dlc (c :: (u2 ++ nodeSuf)) = (true, c :: u2)
    rw [cleanLoop]
    rw [if_neg ?hno]
    case hno =>
      rintro ⟨hdot, htake, hbound⟩
      rcases hbound with hb | hb
      · have hlen := congrArg List.length hb
        simp [List.length_drop, List.length_append, nodeSuf] at hlen
      · obtain ⟨x, xs, hxx⟩ : ∃ x xs, (u2 ++ nodeSuf).drop 4 = x :: xs := by
          cases hd : (u2 ++ nodeSuf).drop 4 with
          | nil => rw [hd] at hb; simp at hb
          | cons a b => exact ⟨a, b, rfl⟩
        rw [hxx] at hb
        simp only [List.head?_cons, Option.some.injEq] at hb
        subst hb
        have hmem : '/' ∈ u2 ++ nodeSuf := by
          have hmd : '/' ∈ (u2 ++ nodeSuf).drop 4 := by
            rw [hxx]
            simp
          exact List.drop_subset _ _ hmd
        rcases List.mem_append.mp hmem with hm | hm
        · have := mem_of_noSlash hns2 '/' hm
          simp at this
        · simp [nodeSuf] at hm
    simp only [ih hns2 false, hceq, Bool.false_and, Bool.not_false, Bool.and_true]

theorem sm_noSlash_id : ∀ {u : List Char}, noSlash u = true → sm u = u := by
  intro u
  induction u with
  | nil => intro _; rfl
  | cons c u2 ih =>
    intro h
    have hc : (c != '/') = true := mem_of_noSlash h c (by simp)
    have hc2 : c ≠ '/' := by simpa using hc
    rw [sm_cons_ne hc2, ih (noSlash_tail h)]

theorem noSlash_head_ne {T : List Char} (h : noSlash T = true) :
    T.head? ≠ some '/' := by
  cases T with
  | nil => simp
  | cons a b =>
    intro he
    simp only [List.head?_cons, Option.some.injEq] at he
    subst he
    have := mem_of_noSlash h '/' (by simp)
    simp at this

theorem sm_last_slash : ∀ (n : Nat) (r1 T : List Char), r1.length ≤ n →
    noSlash T = true → ∃ M, sm (r1 ++ '/' :: T) = M ++ '/' :: T := by
  intro n
  induction n with
  | zero =>
    intro r1 T hlen hT
    have hr1 : r1 = [] := List.length_eq_zero.mp (Nat.le_zero.mp hlen)
    subst hr1
    rw [List.nil_append, sm_cons_slash (noSlash_head_ne hT), sm_noSlash_id hT]
    exact ⟨['.', 'n', 'o', 'd', 'e'], rfl⟩
  | succ n ih =>
    intro r1 T hlen hT
    cases r1 with
    | nil => exact ih [] T (by simp) hT
    | cons c r12 =>
      have hlen2 : r12.length ≤ n := by
        simp only [List.length_cons] at hlen
        omega
      by_cases hc : c = '/'
      · subst hc
        by_cases hh : (r12 ++ '/' :: T).head? = some '/'
        · rw [List.cons_append, sm_cons_slash_slash hh]
          exact ih r12 T hlen2 hT
        · rw [List.cons_append, sm_cons_slash hh]
          obtain ⟨M, hM⟩ := ih r12 T hlen2 hT
          rw [hM]
          exact ⟨'.' :: 'n' :: 'o' :: 'd' :: 'e' :: '/' :: M, rfl⟩
      · rw [List.cons_append, sm_cons_ne hc]
        obtain ⟨M, hM⟩ := ih r12 T hlen2 hT
        rw [hM]
        exact ⟨c :: M, rfl⟩

theorem exists_last_slash : ∀ (rest : List Char), '/' ∈ rest →
    ∃ r1 T, rest = r1 ++ '/' :: T ∧ noSlash T = true := by
  intro rest
  induction rest with
  | nil => intro h; simp at h
  | cons c cs ih =>
    intro h
    by_cases hcs : '/' ∈ cs
    · obtain ⟨r1, T, he, hT⟩ := ih hcs
      exact ⟨c :: r1, T, by rw [List.cons_append, ← he], hT⟩
    · have hc : c = '/' := by
        rcases List.mem_cons.mp h with h1 | h1
        · exact h1.symm
        · exact absurd h1 hcs
      subst hc
      refine ⟨[], cs, rfl, ?_⟩
      simp only [noSlash, List.all_eq_true]
      intro x hx
      simp only [bne_iff_ne, ne_eq]
      intro he
      subst he
      exact hcs hx

theorem all_slash_snoc {l : List Char} (hne : l ≠ []) (h : ∀ c ∈ l, c = '/') :
    ∃ a, l = a ++ ['/'] := by
  refine ⟨l.dropLast, ?_⟩
  conv_lhs => rw [← List.dropLast_append_getLast hne]
  rw [h _ (List.getLast_mem hne)]

theorem dropWhile_head_false (p : Char → Bool) : ∀ (l : List Char) {c : Char},
    (l.dropWhile p).head? = some c → p c = false := by
  intro l
  induction l with
  | nil => intro c h; simp at h
  | cons a as ih =>
    intro c h
    rw [List.dropWhile_cons] at h
    by_cases hp : p a = true
    · rw [if_pos hp] at h
      exact ih h
    · rw [if_neg hp] at h
      simp only [List.head?_cons, Option.some.injEq] at h
      subst h
      simpa using hp

theorem takeWhile_mem_true (p : Char → Bool) : ∀ (l : List Char) {c : Char},
    c ∈ l.takeWhile p → p c = true := by
  intro l
  induction l with
  | nil => intro c h; simp at h
  | cons a as ih =>
    intro c h
    rw [List.takeWhile_cons] at h
    by_cases hp : p a = true
    · rw [if_pos hp] at h
      rcases List.mem_cons.mp h with h1 | h1
      · rw [h1]; exact hp
      · exact ih h1
    · rw [if_neg hp] at h
      simp at h

theorem isPref_slash_false {rt m1 : List Char} (h : m1.head? ≠ some '/') :
    ('/' :: rt).isPrefixOf m1 = false := by
  cases m1 with
  | nil => simp [List.isPrefixOf]
  | cons c X =>
    have hc : c ≠ '/' := by
      intro he
      subst he
      exact h rfl
    simp only [List.isPrefixOf, Bool.and_eq_false_iff]
    left
    simp only [beq_eq_false_iff_ne, ne_eq]
    intro he
    exact hc he.symm

theorem clean_name_not_slash {root m1 : List Char} (hpref : root.isPrefixOf m1 = false)
    (hhead : m1.head? ≠ some '/') :
    undofs_clean_name root m1 = cleanLoop 0 true m1 := by
  simp only [undofs_clean_name, hpref, Bool.false_eq_true, if_false]
  split
  · exact absurd rfl hhead
  · rfl

/-- Claim C9 (confirmed): for every user path P (absolute, other than the
root path `/`, whose D(P) is special-cased to the backing root and carries
no mangled component) that passes mangling, demangling the last component
of D(P) — `undofs_clean_name`, which on a single mangled component strips
exactly the one trailing `.node` suffix appended by mangling — succeeds
and yields the last component of P. -/
theorem C9_demangle_last_component (root p d : List Char)
    (hroot : root.head? = some '/')
    (hs : p.head? = some '/')
    (hp : p ≠ ['/'])
    (h : undofs_versiondir_path root p = some d) :
    undofs_clean_name root (lastComp d) = (true, lastComp p) := by
  obtain ⟨rt, hrt⟩ : ∃ rt, root = '/' :: rt := by
    cases root with
    | nil => simp at hroot
    | cons a b =>
      simp only [List.head?_cons, Option.some.injEq] at hroot
      exact ⟨b, by rw [hroot]⟩
  have heq := versiondir_eq hp h
  have hP : p = p.takeWhile (fun c => c == '/') ++ p.dropWhile (fun c => c == '/') :=
    (List.takeWhile_append_dropWhile _ _).symm
  have hleadAll : ∀ c ∈ p.takeWhile (fun c => c == '/'), c = '/' := by
    intro c hc
    exact beq_iff_eq.mp (takeWhile_mem_true (fun x => x == '/') p hc)
  have hleadNe : p.takeWhile (fun c => c == '/') ≠ [] := by
    cases p with
    | nil => simp at hs
    | cons a tl =>
      simp only [List.head?_cons, Option.some.injEq] at hs
      subst hs
      rw [List.takeWhile_cons]
      simp
  obtain ⟨lead2, hlead2⟩ := all_slash_snoc hleadNe hleadAll
  have hrestHead : (p.dropWhile (fun c => c == '/')).head? ≠ some '/' := by
    intro hh
    have := dropWhile_head_false _ p hh
    simp at this
  by_cases hrestNil : p.dropWhile (fun c => c == '/') = []
  · rw [hrestNil] at heq
    rw [show sm [] = [] from rfl] at heq
    simp only [List.isEmpty_nil, if_true, List.append_nil] at heq
    have hd : d = (root ++ lead2) ++ '/' :: ([] : List Char) := by
      rw [heq, hlead2]
      simp
    have hlcd : lastComp d = [] := by
      rw [hd]
      exact lastComp_append _ _ rfl
    have hlcp : lastComp p = [] := by
      conv_lhs => rw [hP, hrestNil, List.append_nil, hlead2]
      rw [show lead2 ++ ['/'] = lead2 ++ '/' :: ([] : List Char) from rfl]
      exact lastComp_append _ _ rfl
    rw [hlcd, hlcp, hrt]
    rw [clean_name_not_slash (isPref_slash_false (by simp)) (by simp)]
    rfl
  · by_cases hsl : '/' ∈ p.dropWhile (fun c => c == '/')
    · obtain ⟨r1, T, hre, hT⟩ := exists_last_slash _ hsl
      obtain ⟨M, hM⟩ := sm_last_slash r1.length r1 T (le_refl _) hT
      rw [hre, hM] at heq
      rw [if_neg (by simp [List.isEmpty_iff])] at heq
      have hd : d = (root ++ p.takeWhile (fun c => c == '/') ++ M) ++
          '/' :: (T ++ nodeSuf) := by
        rw [heq]
        simp [List.append_assoc]
      have hnsTn : noSlash (T ++ nodeSuf) = true := noSlash_append hT noSlash_nodeSuf
      have hlcd : lastComp d = T ++ nodeSuf := by
        rw [hd]
        exact lastComp_append _ _ hnsTn
      have hlcp : lastComp p = T := by
        conv_lhs => rw [hP, hre]
        rw [show p.takeWhile (fun c => c == '/') ++ (r1 ++ '/' :: T) =
          (p.takeWhile (fun c => c == '/') ++ r1) ++ '/' :: T by simp]
        exact lastComp_append _ _ hT
      have hhead2 : (T ++ nodeSuf).head? ≠ some '/' := by
        cases T with
        | nil => simp [nodeSuf]
        | cons a b =>
          have := noSlash_head_ne hT
          simpa using this
      rw [hlcd, hlcp, hrt]
      rw [clean_name_not_slash (isPref_slash_false hhead2) hhead2]
      exact cleanLoop_clean T hT true
    · have hTrest : noSlash (p.dropWhile (fun c => c == '/')) = true := by
        simp only [noSlash, List.all_eq_true]
        intro x hx
        simp only [bne_iff_ne, ne_eq]
        intro he
        subst he
        exact hsl hx
      rw [sm_noSlash_id hTrest] at heq
      rw [if_neg (by simp [List.isEmpty_iff, hrestNil])] at heq
      have hd : d = (root ++ lead2) ++ '/' ::
          (p.dropWhile (fun c => c == '/') ++ nodeSuf) := by
        rw [heq, hlead2]
        simp [List.append_assoc]
      have hnsTn : noSlash (p.dropWhile (fun c => c == '/') ++ nodeSuf) = true :=
        noSlash_append hTrest noSlash_nodeSuf
      have hlcd : lastComp d = p.dropWhile (fun c => c == '/') ++ nodeSuf := by
        rw [hd]
        exact lastComp_append _ _ hnsTn
      have hlcp : lastComp p = p.dropWhile (fun c => c == '/') := by
        conv_lhs => rw [hP, hlead2]
        rw [show (lead2 ++ ['/']) ++ p.dropWhile (fun c => c == '/') =
          lead2 ++ '/' :: p.dropWhile (fun c => c == '/') by simp]
        exact lastComp_append _ _ hTrest
      have hhead2 : (p.dropWhile (fun c => c == '/') ++ nodeSuf).head? ≠ some '/' := by
        cases hres : p.dropWhile (fun c => c == '/') with
        | nil => exact absurd hres hrestNil
        | cons a b =>
          rw [hres] at hrestHead
          simpa using hrestHead
      rw [hlcd, hlcp, hrt]
      rw [clean_name_not_slash (isPref_slash_false hhead2) hhead2]
      exact cleanLoop_clean _ hTrest true

/-- Witness for C9: the theorem applied to `/a/b` with root `/r`; the last
component `b.node` of D demangles back to `b`. -/
theorem C9_witness :
    ("/r".toList.head? = some '/' ∧ "/a/b".toList.head? = some '/' ∧
     "/a/b".toList ≠ ['/'] ∧
     undofs_versiondir_path "/r".toList "/a/b".toList = some "/r/a.node/b.node".toList) ∧
    undofs_clean_name "/r".toList (lastComp "/r/a.node/b.node".toList) =
      (true, lastComp "/a/b".toList) := by
  refine ⟨⟨by decide, by decide, by decide, by decide⟩, ?_⟩
  exact C9_demangle_last_component "/r".toList "/a/b".toList "/r/a.node/b.node".toList
    (by decide) (by decide) (by decide) (by decide)

end Undofs
